import Mathlib

set_option autoImplicit false

/-!
Verification development for the SoFiA 2.0.0-beta source-finding core
(sofia.c, DataCube.c, LinkerPar.h).

The C code is shallowly embedded as follows.

* Floating-point payload values are modelled by `FV := Option ℚ`, with
  `none` standing for NaN.  Every C comparison involving NaN is false,
  which the embedding reproduces.  Rounding of IEEE arithmetic is not
  modelled: arithmetic is exact on `ℚ`.
* A data cube is a triple of axis sizes together with a total function
  from coordinates to values; the C code addresses the flat payload
  through `DataCube_get_index(x,y,z) = x + nx*(y + ny*z)`, which is a
  bijection between in-bounds coordinates and flat indices, so the
  coordinate-indexed view is faithful for in-bounds accesses.
* `ensure(...)` aborts the program; functions whose modelled behaviour
  can abort return `Option`.
* The statistics module (statistics_flt.c / statistics_dbl.c, providing
  `std_dev_val`, `filter_boxcar_1d`, `filter_gauss_2d`,
  `optimal_filter_size`) and LinkerPar.c / Array.c are not part of the
  sources; those functions are modelled from the specification and each
  carries a doc comment saying so.
-/

namespace SoFiA

/-- A floating-point value: `none` models NaN, `some q` a finite value.
(IEEE infinities play no role in the verified fragment.) -/
abbrev FV := Option ℚ

/-- Position inside a cube: `(x, y, z)`. -/
abbrev Pos := ℕ × ℕ × ℕ

/-- The threshold test of `DataCube_mask` / `DataCube_mask_32`:
`*ptr_data > threshold || *ptr_data < -threshold`.  C comparisons with a
NaN operand are false, hence the `none` case. -/
def exceeds (x : FV) (t : ℚ) : Bool :=
  match x with
  | none => false
  | some v => decide (t < v) || decide (v < -t)

/-- Threshold test against a possibly-NaN threshold (`threshold * rms`
in `DataCube_run_scfind` can be NaN when the rms is NaN). -/
def exceedsF (x : FV) (t : FV) : Bool :=
  match t with
  | none => false
  | some tq => exceeds x tq

/-- `|x| > t` for a possibly-NaN value, as a `Prop`. -/
def fvAbsGT (x : FV) (t : ℚ) : Prop :=
  ∃ v, x = some v ∧ t < |v|

instance (x : FV) (t : ℚ) : Decidable (fvAbsGT x t) := by
  unfold fvAbsGT
  cases x with
  | none => exact isFalse (by rintro ⟨v, h, -⟩; cases h)
  | some v =>
      exact decidable_of_iff (t < |v|)
        ⟨fun h => ⟨v, rfl, h⟩, by rintro ⟨w, hw, h⟩; cases hw; exact h⟩

/-- Multiplication of an exact factor with a possibly-NaN value
(`threshold * rms` in C; NaN propagates). -/
def fvScale (t : ℚ) (x : FV) : FV := x.map (fun v => t * v)

/-- `copysign(value, s)`: the magnitude of `value` with the sign of `s`.
A NaN `value` propagates.  For a NaN sign operand, C uses the sign bit
of the NaN; the model takes it to be positive (no claim depends on it).
`ℚ` has no negative zero, so `copysign(v, -0.0)` is not distinguished. -/
def fvCopysign (value : FV) (s : FV) : FV :=
  match value with
  | none => none
  | some m =>
    match s with
    | none => some |m|
    | some w => if w < 0 then some (-|m|) else some |m|

/-- A floating-point data cube: axis sizes and the payload, viewed
through coordinates.  Models a `DataCube` with `data_type ∈ {-32,-64}`. -/
structure Cube where
  nx : ℕ
  ny : ℕ
  nz : ℕ
  data : Pos → FV

/-- An integer cube used as a detection mask (`data_type ∈ {8,16,32,64}`
for `DataCube_mask`, exactly 32 for the `_32` variants and the linker). -/
structure MaskCube where
  nx : ℕ
  ny : ℕ
  nz : ℕ
  m : Pos → ℤ

/-- `p` is an in-bounds coordinate of an `nx × ny × nz` cube. -/
def inBounds (nx ny nz : ℕ) (p : Pos) : Prop :=
  p.1 < nx ∧ p.2.1 < ny ∧ p.2.2 < nz

instance (nx ny nz : ℕ) (p : Pos) : Decidable (inBounds nx ny nz p) := by
  unfold inBounds; infer_instance

/-- `DataCube_blank(nx, ny, nz, 32)` as used by the S+C finder: a fresh
32-bit mask cube, payload `calloc`ed to zero. -/
def MaskCube.blank (nx ny nz : ℕ) : MaskCube :=
  ⟨nx, ny, nz, fun _ => 0⟩

/-- `DataCube_mask`: sets `mask[i] = 1` wherever
`data[i] > threshold || data[i] < -threshold`; every other mask entry is
left untouched.  `ensure` demands matching axis sizes and
`threshold > 0.0` (else the program aborts, modelled by `none`).  The
C loop runs over the flat payload; the model applies the identical
pointwise rule at every in-bounds coordinate. -/
def DataCube_mask (c : Cube) (mk : MaskCube) (threshold : ℚ) : Option MaskCube :=
  if c.nx = mk.nx ∧ c.ny = mk.ny ∧ c.nz = mk.nz ∧ 0 < threshold then
    some { mk with m := fun p =>
      if (inBounds c.nx c.ny c.nz p ∧ exceeds (c.data p) threshold) then 1 else mk.m p }
  else none

/-- `DataCube_mask_32`: same masking rule as `DataCube_mask`, restricted
to 32-bit masks (the C code only differs in the traversal and the mask
element type).  The threshold argument is a C `double` that may be NaN
(`threshold * rms` in the S+C finder), in which case
`ensure(threshold > 0.0)` fails. -/
def DataCube_mask_32 (c : Cube) (mk : MaskCube) (threshold : FV) : Option MaskCube :=
  match threshold with
  | none => none
  | some t =>
    if c.nx = mk.nx ∧ c.ny = mk.ny ∧ c.nz = mk.nz ∧ 0 < t then
      some { mk with m := fun p =>
        if (inBounds c.nx c.ny c.nz p ∧ exceeds (c.data p) t) then 1 else mk.m p }
    else none

/-- `DataCube_set_masked_32`: replaces `data[i]` by
`copysign(value, data[i])` wherever the 32-bit mask is non-zero.
(The size/type `ensure`s are assumed met by the S+C finder, which calls
it on a copy of its own input and its own blank mask.) -/
def DataCube_set_masked_32 (c : Cube) (mk : MaskCube) (value : FV) : Cube :=
  { c with data := fun p =>
      if (inBounds c.nx c.ny c.nz p ∧ mk.m p ≠ 0) then fvCopysign value (c.data p)
      else c.data p }

/-- Zero-padded, NaN-zeroed access to a spectrum of length `n` at a
possibly negative position `w` (used by the boxcar filter; the C filter
first replaces NaNs by 0 whenever the spectrum contains a NaN, and pads
with 0 beyond both ends; a NaN-free spectrum reads the same values
either way, so one access function serves both paths). -/
def padGet (s : ℕ → FV) (n : ℕ) (w : ℤ) : ℚ :=
  if 0 ≤ w ∧ w < (n : ℤ) then ((s w.toNat).getD 0) else 0

/-- Modelled from the spec: `filter_boxcar_1d` (statistics_flt.c /
statistics_dbl.c are not among the sources).  A symmetric moving average
of width `2r+1` over a vector of length `n`, zero-padded at both ends,
with NaNs replaced by 0 before filtering. -/
def filter_boxcar_1d (s : ℕ → FV) (n r : ℕ) : ℕ → FV :=
  fun z => some ((∑ d ∈ Finset.range (2 * r + 1), padGet s n ((z : ℤ) + d - r)) / (2 * r + 1))

/-- `DataCube_boxcar`: convolves each spectrum (the run over `z` at
fixed `(x,y)`) with a boxcar of half-width `radius`; a radius below 1 is
promoted to 1 (`if(radius < 1) radius = 1;`). -/
def DataCube_boxcar (c : Cube) (radius : ℕ) : Cube :=
  let r := if radius < 1 then 1 else radius
  { c with data := fun p =>
      if (inBounds c.nx c.ny c.nz p) then
        filter_boxcar_1d (fun zz => c.data (p.1, p.2.1, zz)) c.nz r p.2.2
      else c.data p }

/-- Modelled from the spec: `optimal_filter_size_dbl` (not among the
sources) chooses a number of boxcar iterations `n` and a half-width `r`
with `n·((2r+1)²−1)/12 ≈ σ²`.  The model fixes `n = 3` iterations and
takes the least `r` with `3·((2r+1)²−1) ≥ 12·σ²`.  No claim below
depends on the particular choice. -/
def optimal_filter_size (sigma : ℚ) : ℕ × ℕ :=
  (Nat.find (p := fun r => 12 * sigma ^ 2 ≤ 3 * (((2 * r + 1 : ℚ)) ^ 2 - 1))
    ⟨⌈sigma ^ 2⌉.toNat + 1, by
      have h0 : (0 : ℚ) ≤ sigma ^ 2 := sq_nonneg _
      have hb : (⌈sigma ^ 2⌉ : ℚ) ≤ (⌈sigma ^ 2⌉.toNat : ℚ) := by
        exact_mod_cast Int.self_le_toNat _
      have h1 : sigma ^ 2 ≤ (⌈sigma ^ 2⌉.toNat : ℚ) + 1 := by
        have ha := Int.le_ceil (sigma ^ 2)
        linarith
      have h2 : (0 : ℚ) ≤ (⌈sigma ^ 2⌉.toNat : ℚ) := by positivity
      push_cast
      nlinarith [sq_nonneg ((⌈sigma ^ 2⌉.toNat : ℚ))]⟩, 3)

/-- Modelled from the spec: `filter_gauss_2d` (not among the sources).
Each `x`–`y` plane is convolved with `n` repeated boxcars of half-width
`r`, first along rows (`x`), then along columns (`y`), zero-padded, with
NaNs zeroed. -/
def filter_gauss_2d (p : ℕ → ℕ → FV) (nx ny n r : ℕ) : ℕ → ℕ → FV :=
  let rows := (fun q => Nat.iterate (fun g => fun y x => filter_boxcar_1d (fun xx => g y xx) nx r x) n (fun y x => q x y))
  let afterRows := rows p
  let afterCols := Nat.iterate (fun g => fun x y => filter_boxcar_1d (fun yy => g x yy) ny r y) n (fun x y => afterRows y x)
  fun x y => afterCols x y

/-- `DataCube_gaussian`: applies the separable approximate Gaussian of
standard deviation `sigma` to every spatial plane. -/
def DataCube_gaussian (c : Cube) (sigma : ℚ) : Cube :=
  let fr := optimal_filter_size sigma
  { c with data := fun p =>
      if (inBounds c.nx c.ny c.nz p) then
        filter_gauss_2d (fun x y => c.data (x, y, p.2.2)) c.nx c.ny fr.2 fr.1 p.1 p.2.1
      else c.data p }

/-- Flat-index read of a cube payload (the statistics routines traverse
the payload as a flat array; `i ↦ (i mod nx, (i / nx) mod ny, i/(nx·ny))`
inverts `DataCube_get_index` on the in-bounds range). -/
def flatGet (c : Cube) (i : ℕ) : FV :=
  c.data (i % c.nx, (i / c.nx) % c.ny, i / (c.nx * c.ny))

/-- Modelled from the spec: `std_dev_val` (statistics_flt.c /
statistics_dbl.c are not among the sources).  Standard deviation about
`v` over the sub-sequence of indices that are multiples of `cadence`,
restricted by the flux range (`range < 0`: `x ≤ v`; `range > 0`:
`x ≥ v`; `range = 0`: all), NaNs always excluded; returns NaN when no
value qualifies.  The square root is taken with `Rat.sqrt`, which is
exact whenever the mean square is the square of a rational - every use
in the theorems below is of that form. -/
def std_dev_val (size : ℕ) (get : ℕ → FV) (v : ℚ) (cadence : ℕ) (range : ℤ) : FV :=
  let sel : ℚ → Bool := fun x =>
    if range < 0 then decide (x ≤ v) else if 0 < range then decide (v ≤ x) else true
  let vals := ((List.range size).filter (fun i => i % cadence = 0)).filterMap
    (fun i => match get i with
      | none => none
      | some x => if sel x then some x else none)
  if vals.length = 0 then none
  else some (Rat.sqrt ((vals.map (fun x => (x - v) ^ 2)).sum / vals.length))

/-- `DataCube_stat_std`: delegates to `std_dev_val` over the flat
payload, turning a zero cadence into 1. -/
def DataCube_stat_std (c : Cube) (v : ℚ) (cadence : ℕ) (range : ℤ) : FV :=
  std_dev_val (c.nx * c.ny * c.nz) (flatGet c) v (if cadence = 0 then 1 else cadence) range

/-- Largest `m` with `10⁶·m³ ≤ n`, i.e.
`(size_t)pow((double)n / 1.0e+6, 1.0/3.0)` for exact arithmetic. -/
def cbrtMega (n : ℕ) : ℕ :=
  ((List.range (n + 1)).filter (fun m => 1000000 * m ^ 3 ≤ n)).foldr max 0

/-- The sampling stride of the S+C finder:
`sampleRms = (size_t)pow(data_size / 1.0e+6, 1.0/3.0)`, raised to 1. -/
def sampleRms (dataSize : ℕ) : ℕ :=
  max 1 (cbrtMega dataSize)

/-- The conversion constant `2·√(2·ln 2)` between Gaussian FWHM and σ,
as the C `double` rounds it (a rational approximation; no claim depends
on its value). -/
def FWHM_CONST : ℚ := 2354820045 / 1000000000

/-- The cross-product of the two kernel lists in loop order (spatial
kernels outermost, spectral kernels innermost). -/
def kernelPairs (kxy : List ℚ) (kz : List ℕ) : List (ℚ × ℕ) :=
  kxy.flatMap (fun a => kz.map (fun b => (a, b)))

/-- One smoothed working copy of the S+C finder: deep-copy the input,
replace already-detected pixels by `copysign(maskScaleXY·rms, ·)`, then
smooth spatially (Gaussian of σ = kxy/FWHM_CONST when `kxy ≠ 0`) and
spectrally (boxcar of radius `kz/2` when `kz ≠ 0`). -/
def scSmoothWork (c : Cube) (mk : MaskCube) (repl : FV) (kxy : ℚ) (kz : ℕ) : Cube :=
  let c1 := DataCube_set_masked_32 c mk repl
  let c2 := if kxy ≠ 0 then DataCube_gaussian c1 (kxy / FWHM_CONST) else c1
  if kz ≠ 0 then DataCube_boxcar c2 (kz / 2) else c2

/-- One iteration of the S+C kernel loop: skip the pair `(0,0)`,
otherwise build the smoothed copy, measure its rms, and OR the pixels
above `threshold·rms` into the mask (which aborts on a non-positive or
NaN scaled threshold). -/
def scStep (c : Cube) (rms : FV) (t mScale : ℚ) (s : ℕ)
    (acc : Option MaskCube) (k : ℚ × ℕ) : Option MaskCube :=
  match acc with
  | none => none
  | some mk =>
    if k.1 ≠ 0 ∨ k.2 ≠ 0 then
      let sm := scSmoothWork c mk (fvScale mScale rms) k.1 k.2
      let rms2 := DataCube_stat_std sm 0 s (-1)
      DataCube_mask_32 sm mk (fvScale t rms2)
    else some mk

/-- The global noise estimate `σ₀` of the S+C finder:
`DataCube_stat_std(this, 0.0, sampleRms, -1)`. -/
def scRms0 (c : Cube) : FV :=
  DataCube_stat_std c 0 (sampleRms (c.nx * c.ny * c.nz)) (-1)

/-- The mask state of the S+C finder after the initial threshold pass
and the first `k` kernel iterations. -/
def scMaskAfter (c : Cube) (kxy : List ℚ) (kz : List ℕ) (t mScale : ℚ) (k : ℕ) :
    Option MaskCube :=
  ((kernelPairs kxy kz).take k).foldl
    (scStep c (scRms0 c) t mScale (sampleRms (c.nx * c.ny * c.nz)))
    (DataCube_mask_32 c (MaskCube.blank c.nx c.ny c.nz) (fvScale t (scRms0 c)))

/-- The smoothed working copy produced in iteration `k` of the S+C
finder (given the mask state that iteration starts from). -/
def scSmoothedAt (c : Cube) (kxy : List ℚ) (kz : List ℕ) (t mScale : ℚ) (k : ℕ) : Cube :=
  let pair := (kernelPairs kxy kz).getD k (0, 0)
  scSmoothWork c ((scMaskAfter c kxy kz t mScale k).getD (MaskCube.blank c.nx c.ny c.nz))
    (fvScale mScale (scRms0 c)) pair.1 pair.2

/-- The noise estimate of the smoothed copy of iteration `k`. -/
def scRmsAt (c : Cube) (kxy : List ℚ) (kz : List ℕ) (t mScale : ℚ) (k : ℕ) : FV :=
  DataCube_stat_std (scSmoothedAt c kxy kz t mScale k) 0 (sampleRms (c.nx * c.ny * c.nz)) (-1)

/-- `DataCube_run_scfind`: the Smooth + Clip finder.  `ensure`s a
floating-point input, non-empty kernel lists and `threshold ≥ 0`;
creates a blank 32-bit mask, applies the initial threshold
`threshold·σ₀`, then runs the kernel loop.  (The function also copies
WCS keywords into the mask header, which does not affect the mask
payload and is modelled by the header operations separately.) -/
def DataCube_run_scfind (c : Cube) (kxy : List ℚ) (kz : List ℕ) (t mScale : ℚ) :
    Option MaskCube :=
  if 0 ≤ t ∧ kxy ≠ [] ∧ kz ≠ [] then
    scMaskAfter c kxy kz t mScale (kernelPairs kxy kz).length
  else none


/-! ## Header store

The FITS header is a sequence of 80-character records.  The record
layout constants come from the header file (not among the sources) and
are modelled from the spec (§3): 8-byte keyword, `=` at byte 8, value
field in bytes 10–79, 36 records per 2880-byte block. -/

/-- One header record: a list of (80) characters. -/
abbrev HLine := List Char

/-- A header: its records in order, including the `END` record and any
blank records that pad the final 2880-byte block. -/
abbrev Header := List HLine

def FITS_HEADER_LINES : ℕ := 36
def FITS_HEADER_KEYWORD_SIZE : ℕ := 8
def FITS_HEADER_KEY_SIZE : ℕ := 10
def FITS_HEADER_VALUE_SIZE : ℕ := 70
def FITS_HEADER_FIXED_WIDTH : ℕ := 20

/-- The single-quote character (written via its code so that the source
carries no quote literal). -/
def quoteChar : Char := Char.ofNat 39

/-- The matching test of `DataCube_chkhd`: the key is a prefix of the
record and the byte directly after the key (`*(ptr + size)`, i.e. at
offset `strlen(key)`) is a space or `=`. -/
def chkMatch (key : List Char) (line : HLine) : Bool :=
  key.isPrefixOf line &&
    (match line.get? key.length with
     | some c => c == ' ' || c == '='
     | none => false)

/-- `DataCube_chkhd`: 1-based line number of the first record matching
`chkMatch`, 0 when there is none; `ensure(0 < strlen(key) ≤ 8)` aborts
(`none`) otherwise. -/
def DataCube_chkhd (h : Header) (key : List Char) : Option ℕ :=
  if 1 ≤ key.length ∧ key.length ≤ FITS_HEADER_KEYWORD_SIZE then
    some (match h.findIdx? (chkMatch key) with
          | some i => i + 1
          | none => 0)
  else none

/-- `DataCube_gethd_raw`: scans for the first record of which the key
is a raw prefix — unlike `DataCube_chkhd` it performs no check of the
byte following the keyword — and yields the 70-byte value field (bytes
10–79).  `none` models return value 1 (keyword not found, destination
buffer untouched). -/
def DataCube_gethd_raw (h : Header) (key : List Char) : Option (List Char) :=
  match h.find? (fun l => key.isPrefixOf l) with
  | some l => some ((l.drop FITS_HEADER_KEY_SIZE).take FITS_HEADER_VALUE_SIZE)
  | none => none

/-- Decimal digit test of the value parsers. -/
def isDigitCh (c : Char) : Bool := decide ('0' ≤ c) && decide (c ≤ '9')

/-- Accumulates decimal digits (most significant first). -/
def parseNatDigits (cs : List Char) : ℕ :=
  cs.foldl (fun a c => 10 * a + (c.toNat - 48)) 0

/-- Model of `strtol(buffer, NULL, 10)`: skip leading spaces, optional
sign, then decimal digits up to the first non-digit; 0 when there are
no digits.  (The buffers this header produces contain only spaces,
sign, digits and the NUL modelled by the end of the list.) -/
def strtolCore (cs1 : List Char) : ℤ :=
  if cs1.head? = some '-' then -(parseNatDigits ((cs1.drop 1).takeWhile isDigitCh) : ℤ)
  else if cs1.head? = some '+' then (parseNatDigits ((cs1.drop 1).takeWhile isDigitCh) : ℤ)
  else (parseNatDigits (cs1.takeWhile isDigitCh) : ℤ)

def strtolM (cs : List Char) : ℤ :=
  strtolCore (cs.dropWhile (fun c => c == ' '))

/-- Model of `strtod(buffer, NULL)` on decimal/scientific notation:
skip spaces, optional sign, integer part, optional fraction, optional
exponent; exact rational result. -/
def strtodM (cs : List Char) : ℚ :=
  let cs1 := cs.dropWhile (fun c => c == ' ')
  let sgn : ℚ × List Char :=
    match cs1 with
    | '-' :: rest => (-1, rest)
    | '+' :: rest => (1, rest)
    | _ => (1, cs1)
  let ipart := sgn.2.takeWhile isDigitCh
  let cs3 := sgn.2.drop ipart.length
  let fpart : List Char × List Char :=
    match cs3 with
    | '.' :: rest => (rest.takeWhile isDigitCh, rest.drop (rest.takeWhile isDigitCh).length)
    | _ => ([], cs3)
  let ex : ℤ :=
    match fpart.2 with
    | 'E' :: rest =>
      (match rest with
       | '-' :: r2 => -(parseNatDigits (r2.takeWhile isDigitCh) : ℤ)
       | '+' :: r2 => (parseNatDigits (r2.takeWhile isDigitCh) : ℤ)
       | _ => (parseNatDigits (rest.takeWhile isDigitCh) : ℤ))
    | 'e' :: rest =>
      (match rest with
       | '-' :: r2 => -(parseNatDigits (r2.takeWhile isDigitCh) : ℤ)
       | '+' :: r2 => (parseNatDigits (r2.takeWhile isDigitCh) : ℤ)
       | _ => (parseNatDigits (rest.takeWhile isDigitCh) : ℤ))
    | _ => 0
  sgn.1 * ((parseNatDigits ipart : ℚ) + (parseNatDigits fpart.1 : ℚ) / 10 ^ fpart.1.length)
    * (10 : ℚ) ^ ex

/-- `DataCube_gethd_int`: 0 on a missing keyword, else `strtol` of the
value field. -/
def DataCube_gethd_int (h : Header) (key : List Char) : ℤ :=
  match DataCube_gethd_raw h key with
  | none => 0
  | some buf => strtolM buf

/-- `DataCube_gethd_flt`: NaN on a missing keyword, else `strtod` of
the value field. -/
def DataCube_gethd_flt (h : Header) (key : List Char) : FV :=
  match DataCube_gethd_raw h key with
  | none => none
  | some buf => some (strtodM buf)

/-- `DataCube_gethd_bool`: false on a missing keyword; else skips
spaces and compares the first non-space byte with `T` (the terminating
NUL, modelled by the end of the list, compares unequal). -/
def DataCube_gethd_bool (h : Header) (key : List Char) : Bool :=
  match DataCube_gethd_raw h key with
  | none => false
  | some buf =>
    match buf.dropWhile (fun c => c == ' ') with
    | [] => false
    | c :: _ => c == quoteChar && false || c == 'T'

/-- Finds the index of the closing quote the way `DataCube_gethd_str`
does: the first quote not directly followed by another quote, skipping
quote pairs (two adjacent quotes escape one). -/
def closeQuote : List Char → ℕ → Option ℕ
  | [], _ => none
  | c :: rest, i =>
    if c = quoteChar then
      match rest with
      | c2 :: rest2 => if c2 = quoteChar then closeQuote rest2 (i + 2) else some i
      | [] => some i
    else closeQuote rest (i + 1)

/-- `DataCube_gethd_str`: `none` models both "keyword not found, flag 1,
buffer untouched" and the `ensure` aborts for a non-string or
unbalanced value; on success the raw characters between the enclosing
quotes (the C `memcpy` does not collapse escaped quote pairs). -/
def DataCube_gethd_str (h : Header) (key : List Char) : Option (List Char) :=
  match DataCube_gethd_raw h key with
  | none => none
  | some buf =>
    match buf.dropWhile (fun c => ! (c == quoteChar)) with
    | [] => none
    | _ :: tail =>
      match closeQuote tail 0 with
      | none => none
      | some i => some (tail.take i)

/-- Maps a digit value to its character. -/
def digitChar (d : ℕ) : Char := Char.ofNat (48 + d)

/-- Decimal digits of `n`, most significant first (empty for 0). -/
def natDigitChars (n : ℕ) : List Char := (Nat.digits 10 n).reverse.map digitChar

/-- Decimal rendering of a C `long int` (`%ld` without the width). -/
def intChars (v : ℤ) : List Char :=
  if v < 0 then '-' :: natDigitChars v.natAbs
  else if v = 0 then ['0']
  else natDigitChars v.natAbs

/-- Right-pads with spaces to length `n`. -/
def padRight (cs : List Char) (n : ℕ) : List Char :=
  cs ++ List.replicate (n - cs.length) ' '

/-- Left-pads with spaces to length `n` (printf width). -/
def padLeft (cs : List Char) (n : ℕ) : List Char :=
  List.replicate (n - cs.length) ' ' ++ cs

/-- The 70-byte value buffer of `DataCube_puthd_int`: `%20ld` followed
by spaces; the `ensure(size ≤ FITS_HEADER_FIXED_WIDTH)` aborts when the
rendering needs more than 20 characters. -/
def intBuffer (v : ℤ) : Option (List Char) :=
  if (intChars v).length ≤ FITS_HEADER_FIXED_WIDTH then
    some (padRight (padLeft (intChars v) FITS_HEADER_FIXED_WIDTH) FITS_HEADER_VALUE_SIZE)
  else none

/-- `10^e ≤ v` for a rational `v > 0` and an integer exponent. -/
def pow10LE (e : ℤ) (v : ℚ) : Bool :=
  if 0 ≤ e then decide ((10 ^ e.toNat : ℚ) ≤ v) else decide ((1 : ℚ) ≤ v * 10 ^ (-e).toNat)

/-- Decimal exponent (floor of log₁₀|v|) of a non-zero rational. -/
def decExp (v : ℚ) : ℤ :=
  let e0 : ℤ := (Nat.log 10 v.num.natAbs : ℤ) - (Nat.log 10 v.den : ℤ)
  if pow10LE (e0 + 1) |v| then e0 + 1 else if pow10LE e0 |v| then e0 else e0 - 1

/-- Mantissa (12 significant digits, rounded) and exponent of the
`%.11E` rendering of a non-zero rational. -/
def fltMantExp (v : ℚ) : ℕ × ℤ :=
  let e := decExp v
  let m := (round (|v| * (10 : ℚ) ^ ((11 : ℤ) - e))).toNat
  if m = 10 ^ 12 then (10 ^ 11, e + 1) else (m, e)

/-- Exponent field of `%.11E`: sign and at least two digits. -/
def expChars (e : ℤ) : List Char :=
  let ds := natDigitChars e.natAbs
  let ds2 := if ds.length < 2 then List.replicate (2 - ds.length) '0' ++ ds else ds
  (if e < 0 then '-' else '+') :: (if e.natAbs = 0 then ['0', '0'] else ds2)

/-- The characters `%.11E` produces (modelled from the format
`%20.11E` of the spec: `d.ddddddddddd E±XX`, 12 significant digits; the
half-way rounding of the model is half-up where C rounds the underlying
binary double to nearest - no claim exercises a tie). -/
def fltChars (v : ℚ) : List Char :=
  if v = 0 then ['0', '.'] ++ List.replicate 11 '0' ++ ['E', '+', '0', '0']
  else
    let me := fltMantExp v
    let ds0 := natDigitChars me.1
    let ds := if ds0.length = 0 then ['0'] else ds0
    (if v < 0 then ['-'] else []) ++ [ds.headD '0'] ++ ['.'] ++
      (ds.tail ++ List.replicate (11 - ds.tail.length) '0').take 11 ++ ['E'] ++ expChars me.2

/-- The 70-byte value buffer of `DataCube_puthd_flt` (`%20.11E`). -/
def fltBuffer (v : ℚ) : Option (List Char) :=
  if (fltChars v).length ≤ FITS_HEADER_FIXED_WIDTH then
    some (padRight (padLeft (fltChars v) FITS_HEADER_FIXED_WIDTH) FITS_HEADER_VALUE_SIZE)
  else none

/-- The 70-byte value buffer of `DataCube_puthd_bool`: `T`/`F` at byte
19 (column 30 of the record), spaces elsewhere. -/
def boolBuffer (v : Bool) : List Char :=
  List.replicate 19 ' ' ++ [if v then 'T' else 'F'] ++ List.replicate 50 ' '

/-- The 70-byte value buffer of `DataCube_puthd_str`: the content in
quotes starting at byte 0 of the value field; `ensure(len ≤ 68)`. -/
def strBuffer (s : List Char) : Option (List Char) :=
  if s.length ≤ FITS_HEADER_VALUE_SIZE - 2 then
    some (quoteChar :: (s ++ [quoteChar] ++
      List.replicate (FITS_HEADER_VALUE_SIZE - 2 - s.length) ' '))
  else none

/-- Writes `s` over `l` starting at offset `i` (a `memcpy` into the
record; bytes outside the written range keep their previous content). -/
def writeAt (l : List Char) (i : ℕ) (s : List Char) : List Char :=
  l.take i ++ s ++ l.drop (i + s.length)

/-- The keyword `END`. -/
def ENDKEY : List Char := ['E', 'N', 'D']

/-- An all-space record. -/
def blankLine : HLine := List.replicate 80 ' '

/-- `DataCube_puthd_raw`: overwrite the value field of the first
`chkMatch` line when present; otherwise grow the header by a blank
block when `END` sits on the last line of a block, write the key, `=`
at byte 8 and the value buffer over the old `END` record (bytes the
`memcpy`s do not touch keep their old content), and write `END` over
the start of the following record. -/
def DataCube_puthd_raw (h : Header) (key : List Char) (buf : List Char) : Option Header :=
  match DataCube_chkhd h key with
  | none => none
  | some line =>
    if 0 < line then
      some (h.set (line - 1) (writeAt (h.getD (line - 1) blankLine) FITS_HEADER_KEY_SIZE buf))
    else
      match DataCube_chkhd h ENDKEY with
      | none => none
      | some 0 => none
      | some e =>
        let h2 := if e % FITS_HEADER_LINES = 0 then
            h ++ List.replicate FITS_HEADER_LINES blankLine else h
        let l1 := writeAt (writeAt (writeAt (h2.getD (e - 1) blankLine) 0 key)
            FITS_HEADER_KEYWORD_SIZE ['=']) FITS_HEADER_KEY_SIZE buf
        let h3 := h2.set (e - 1) l1
        some (h3.set e (writeAt (h3.getD e blankLine) 0 ENDKEY))

/-- `DataCube_puthd_int`. -/
def DataCube_puthd_int (h : Header) (key : List Char) (v : ℤ) : Option Header :=
  match intBuffer v with
  | none => none
  | some buf => DataCube_puthd_raw h key buf

/-- `DataCube_puthd_flt`. -/
def DataCube_puthd_flt (h : Header) (key : List Char) (v : ℚ) : Option Header :=
  match fltBuffer v with
  | none => none
  | some buf => DataCube_puthd_raw h key buf

/-- `DataCube_puthd_bool`. -/
def DataCube_puthd_bool (h : Header) (key : List Char) (v : Bool) : Option Header :=
  DataCube_puthd_raw h key (boolBuffer v)

/-- `DataCube_puthd_str`. -/
def DataCube_puthd_str (h : Header) (key : List Char) (v : List Char) : Option Header :=
  match strBuffer v with
  | none => none
  | some buf => DataCube_puthd_raw h key buf

/-- One round of the deletion loop of `DataCube_delhd`: shift every
record after the match up by one and space-fill the last record. -/
def delStep (h : Header) (line : ℕ) : Header :=
  h.eraseIdx (line - 1) ++ [blankLine]

/-- The `while(line)` loop of `DataCube_delhd`, fuelled (the fuel
`h.length` suffices whenever blank records cannot match the key, which
every theorem below guarantees through its hypotheses). -/
def delLoop : ℕ → Header → List Char → Header
  | 0, h, _ => h
  | fuel + 1, h, key =>
    match DataCube_chkhd h key with
    | none => h
    | some 0 => h
    | some line => delLoop fuel (delStep h line) key

/-- `DataCube_delhd`: removes every `chkMatch` occurrence of the key,
then drops whole trailing blank blocks that precede no content beyond
`END`. -/
def DataCube_delhd (h : Header) (key : List Char) : Option Header :=
  match DataCube_chkhd h key with
  | none => none
  | some 0 => some h
  | some _ =>
    let h2 := delLoop h.length h key
    match DataCube_chkhd h2 ENDKEY with
    | none => none
    | some 0 => none
    | some e =>
      let emptyBlocks := (h2.length - e) / FITS_HEADER_LINES
      some (h2.take (h2.length - emptyBlocks * FITS_HEADER_LINES))

/-- The lookup rule exactly as the specification words it (spec-side
definition for comparison with `DataCube_chkhd` / `DataCube_gethd_raw`):
first record whose keyword field begins with the key, ignoring any line
whose byte 8 is neither a space nor `=`. -/
def specLookup (h : Header) (key : List Char) : ℕ :=
  match h.findIdx? (fun l => key.isPrefixOf l &&
      (match l.get? 8 with
       | some c => c == ' ' || c == '='
       | none => false)) with
  | some i => i + 1
  | none => 0

/-! ## Linker

`LinkerPar.c` is not among the sources (only LinkerPar.h); its
operations are modelled from the spec (§4.D).  Bounding-box coordinates
are kept as `ℕ` where the C stores `uint16_t`; the two coincide for
cubes whose dimensions stay below 2¹⁶, which the linker theorems
assume. -/

/-- One row of the LinkerPar table: final-label slot (0 = not yet
assigned), pixel count, and bounding box. -/
structure LPRow where
  label : ℕ
  n_pix : ℕ
  x_min : ℕ
  x_max : ℕ
  y_min : ℕ
  y_max : ℕ
  z_min : ℕ
  z_max : ℕ
deriving DecidableEq

/-- Modelled from the spec: `LinkerPar_push` appends a fresh row with
`n = 1`, bounding box `(x,x,y,y,z,z)` and final label 0. -/
def LinkerPar_push (lp : List LPRow) (x y z : ℕ) : List LPRow :=
  lp ++ [⟨0, 1, x, x, y, y, z, z⟩]

/-- Modelled from the spec: `LinkerPar_update` increments the pixel
count of row `i` and widens its bounding box to include `(x,y,z)`. -/
def LinkerPar_update (lp : List LPRow) (i : ℕ) (x y z : ℕ) : List LPRow :=
  match lp.get? i with
  | none => lp
  | some r =>
    lp.set i
      { r with
        n_pix := r.n_pix + 1
        x_min := min r.x_min x
        x_max := max r.x_max x
        y_min := min r.y_min y
        y_max := max r.y_max y
        z_min := min r.z_min z
        z_max := max r.z_max z }

/-- Modelled from the spec (and LinkerPar.h): `LinkerPar_get_size`
returns `bbmax − bbmin + 1` along the requested axis. -/
def LinkerPar_get_size (lp : List LPRow) (i : ℕ) (axis : ℕ) : ℕ :=
  match lp.get? i with
  | none => 0
  | some r =>
    if axis = 0 then r.x_max - r.x_min + 1
    else if axis = 1 then r.y_max - r.y_min + 1
    else r.z_max - r.z_min + 1

/-- Modelled from the spec: `LinkerPar_get_label`. -/
def LinkerPar_get_label (lp : List LPRow) (i : ℕ) : ℕ :=
  match lp.get? i with
  | none => 0
  | some r => r.label

/-- Modelled from the spec: `LinkerPar_set_label`. -/
def LinkerPar_set_label (lp : List LPRow) (i : ℕ) (v : ℕ) : List LPRow :=
  match lp.get? i with
  | none => lp
  | some r => lp.set i { r with label := v }

/-- Modelled from the spec: `LinkerPar_reduce` discards every row whose
final label is still 0 and reorders the survivors into ascending final
label. -/
def LinkerPar_reduce (lp : List LPRow) : List LPRow :=
  (lp.filter (fun r => r.label ≠ 0)).mergeSort (fun a b => a.label ≤ b.label)

/-- `size_t` subtraction modulo 2⁶⁴, for the faithful translation of
the box-clipping bounds of `DataCube_mark_neighbours`. -/
def subW (a b : ℕ) : ℕ := (((a : ℤ) - b) % (2 ^ 64 : ℤ)).toNat

/-- Lower clip `(v > r) ? v - r : 0`. -/
def clipLo (v r : ℕ) : ℕ := if r < v then v - r else 0

/-- Upper clip `(v < n - 1 - r) ? v + r : n - 1`, the bound computed in
`size_t` arithmetic.  For `r ≤ n - 1` (which the linker theorems
assume; beyond it the C code reads out of bounds) this equals
`min (v + r) (n - 1)`. -/
def clipHi (v r n : ℕ) : ℕ :=
  if v < subW (subW n 1) r then v + r else n - 1

/-- Cube dimensions and merging radii of one linker invocation. -/
structure LinkPar where
  nx : ℕ
  ny : ℕ
  nz : ℕ
  rx : ℕ
  ry : ℕ
  rz : ℕ

/-- The closed interval `[a..b]`, ascending. -/
def rangeIncl (a b : ℕ) : List ℕ := (List.range (b + 1 - a)).map (a + ·)

/-- The neighbours scanned around `p`: the clipped box in the C loop
order (`zz` outermost ascending, then `yy`, then `xx`). -/
def boxList (cfg : LinkPar) (p : Pos) : List Pos :=
  (rangeIncl (clipLo p.2.2 cfg.rz) (clipHi p.2.2 cfg.rz cfg.nz)).flatMap fun zz =>
    (rangeIncl (clipLo p.2.1 cfg.ry) (clipHi p.2.1 cfg.ry cfg.ny)).flatMap fun yy =>
      (rangeIncl (clipLo p.1 cfg.rx) (clipHi p.1 cfg.rx cfg.nx)).map fun xx => (xx, yy, zz)

/-- The skip test
`(xx - x)*(xx - x) + (yy - y)*(yy - y) < radius_x * radius_y`, computed
in `ℤ`; this agrees with the C `size_t` arithmetic whenever the
coordinate differences stay below 2³² (the square of a difference
negated modulo 2⁶⁴ coincides with the integer square). -/
def skipQ (cfg : LinkPar) (p q : Pos) : Bool :=
  decide (((q.1 : ℤ) - p.1) ^ 2 + ((q.2.1 : ℤ) - p.2.1) ^ 2 < (cfg.rx : ℤ) * cfg.ry)

/-- The mask/table state the linker threads through its passes. -/
structure LState where
  m : Pos → ℤ
  lpar : List LPRow

/-- Pointwise mask write. -/
def msetP (m : Pos → ℤ) (p : Pos) (v : ℤ) : Pos → ℤ :=
  fun q => if q = p then v else m q

mutual

/-- `DataCube_mark_neighbours`, fuelled: scan the clipped box in loop
order, handling each neighbour with `markStep`.  Every recursion
follows the conversion of a 1 into the label, so any fuel exceeding the
number of 1-valued in-bounds pixels makes the fuel bound unreachable;
`DataCube_mark_neighbours` passes exactly such a fuel. -/
def markNbF (cfg : LinkPar) (label : ℤ) : ℕ → LState → Pos → LState
  | 0, st, _ => st
  | fuel + 1, st, p =>
    (boxList cfg p).foldl (fun s q => markStep cfg label fuel p s q) st
termination_by fuel _ _ => (fuel, 0)

/-- The body of the neighbour scan: a neighbour with `skipQ` is passed
over (`continue`); a neighbour whose mask value is 1 is set to the
label, recorded with `LinkerPar_update`, and recursed from. -/
def markStep (cfg : LinkPar) (label : ℤ) (fuel : ℕ) (p : Pos) (s : LState) (q : Pos) :
    LState :=
  if skipQ cfg p q then s
  else if s.m q = 1 then
    markNbF cfg label fuel
      ⟨msetP s.m q label, LinkerPar_update s.lpar label.toNat q.1 q.2.1 q.2.2⟩ q
  else s
termination_by (fuel, 1)

end

/-- The mask relation a `markNbF` run induces: pixels keep their value
or turn from 1 into the label. -/
def maskEvolves (label : ℤ) (m0 m1 : Pos → ℤ) : Prop :=
  ∀ q, m1 q = m0 q ∨ (m0 q = 1 ∧ m1 q = label)

/-- One geometric expansion step of the linker: `b` lies in the clipped
box around `a` and is not skipped (its squared horizontal distance is
at least `rx·ry`). -/
def geomStep (cfg : LinkPar) (a b : Pos) : Prop :=
  b ∈ boxList cfg a ∧ skipQ cfg a b = false

/-- `q` is reachable from `p` through a non-empty chain of expansion
steps whose targets all carried mask value 1 in `m0`. -/
def linkReach (cfg : LinkPar) (m0 : Pos → ℤ) (p q : Pos) : Prop :=
  Relation.TransGen (fun a b => geomStep cfg a b ∧ m0 b = 1) p q

/-- Count of 1-valued in-bounds pixels (the fuel bound). -/
def onesCount (cfg : LinkPar) (m : Pos → ℤ) : ℕ :=
  ((Finset.range cfg.nx ×ˢ Finset.range cfg.ny ×ˢ Finset.range cfg.nz).filter
    (fun p => m p = 1)).card

/-- `DataCube_mark_neighbours` with adequate fuel. -/
def DataCube_mark_neighbours (cfg : LinkPar) (label : ℤ) (st : LState) (p : Pos) : LState :=
  markNbF cfg label (onesCount cfg st.m + 1) st p

/-- Pixel visit order of both linker passes: `z` outermost descending,
then `y`, then `x`. -/
def coordsDesc (nx ny nz : ℕ) : List Pos :=
  (List.range nz).reverse.flatMap fun z =>
    (List.range ny).reverse.flatMap fun y =>
      (List.range nx).reverse.map fun x => (x, y, z)

/-- One pixel visit of the labelling pass: a pixel currently equal to 1
receives the next free label, is pushed, and its neighbourhood is
expanded; the label then advances.  (The `int32` wrap guard
`if(label < 2) label = 2` never fires below 2³¹ sources and is not
modelled.) -/
def linkPixelStep (cfg : LinkPar) (s : LState × ℤ) (p : Pos) : LState × ℤ :=
  if s.1.m p = 1 then
    let st1 : LState := ⟨msetP s.1.m p s.2, LinkerPar_push s.1.lpar p.1 p.2.1 p.2.2⟩
    (DataCube_mark_neighbours cfg s.2 st1 p, s.2 + 1)
  else s

/-- The labelling pass: two dummy rows (labels 0 and 1 are reserved),
then every pixel in visit order, provisional labels starting at 2. -/
def linkPhase1 (cfg : LinkPar) (m0 : Pos → ℤ) : LState × ℤ :=
  (coordsDesc cfg.nx cfg.ny cfg.nz).foldl (linkPixelStep cfg)
    (⟨m0, LinkerPar_push (LinkerPar_push [] 0 0 0) 0 0 0⟩, 2)

/-- One pixel visit of the filter/relabel pass: a positive pixel whose
row fails any minimum size is zeroed; otherwise its row receives the
next consecutive final label if it has none yet, and the pixel is
overwritten with the final label of the row. -/
def relabelStep (mins : ℕ × ℕ × ℕ) (s : LState × ℕ) (p : Pos) : LState × ℕ :=
  let v := s.1.m p
  if 0 < v then
    if LinkerPar_get_size s.1.lpar v.toNat 0 < mins.1 ∨
        LinkerPar_get_size s.1.lpar v.toNat 1 < mins.2.1 ∨
        LinkerPar_get_size s.1.lpar v.toNat 2 < mins.2.2 then
      (⟨msetP s.1.m p 0, s.1.lpar⟩, s.2)
    else
      let lp2 := if LinkerPar_get_label s.1.lpar v.toNat = 0
        then LinkerPar_set_label s.1.lpar v.toNat s.2 else s.1.lpar
      let lab2 := if LinkerPar_get_label s.1.lpar v.toNat = 0 then s.2 + 1 else s.2
      (⟨msetP s.1.m p ((LinkerPar_get_label lp2 v.toNat : ℕ) : ℤ), lp2⟩, lab2)
  else s

/-- `DataCube_run_linker`: labelling pass, filter/relabel pass, then
`LinkerPar_reduce`.  The model returns the final mask, the reduced
table, and the count `K` of final labels.  (The C function is declared
`void` and calls `LinkerPar_delete(lpar)` before returning; the
returned table below is the value the caller in sofia.c expects - see
the C8 analysis.) -/
def DataCube_run_linker (cfg : LinkPar) (mins : ℕ × ℕ × ℕ) (m0 : Pos → ℤ) :
    (Pos → ℤ) × List LPRow × ℕ :=
  let ph1 := linkPhase1 cfg m0
  let ph2 := (coordsDesc cfg.nx cfg.ny cfg.nz).foldl (relabelStep mins) (ph1.1, 1)
  (ph2.1.m, LinkerPar_reduce ph2.1.lpar, ph2.2 - 1)

/-! ## Concrete inputs used by witnesses and counterexamples -/

/-- The all-zero 4×4×4 cube of spec scenario 1. -/
def zeroCube4 : Cube := ⟨4, 4, 4, fun _ => some 0⟩

/-- A 2×1×1 cube with constant value −4 (noise σ₀ = 4 exactly). -/
def negCube2 : Cube := ⟨2, 1, 1, fun _ => some (-4)⟩

/-- A 2×1×1 cube holding −4 and a NaN. -/
def nanCube2 : Cube := ⟨2, 1, 1, fun p => if p.1 = 0 then some (-4) else none⟩

/-- A 2×1×1 all-zero mask. -/
def zeroMask2 : MaskCube := ⟨2, 1, 1, fun _ => 0⟩

/-- A 1×1×1 cube of constant value 1. -/
def oneCube1 : Cube := ⟨1, 1, 1, fun _ => some 1⟩

/-- An all-zero 1×1×2 cube. -/
def zeroCube12 : Cube := ⟨1, 1, 2, fun _ => some 0⟩

/-- A 2-pixel linker configuration: 2×1×1 cube, radii `(1,0,0)`. -/
def cfgW : LinkPar := ⟨2, 1, 1, 1, 0, 0⟩

/-- Minimum size requirements `(1,1,1)`. -/
def minsW : ℕ × ℕ × ℕ := (1, 1, 1)

/-- A 2×1×1 mask with both pixels set to 1. -/
def m0W : Pos → ℤ := fun _ => 1

/-- Builds an 80-byte header record from its leading text. -/
def lineOf (s : String) : HLine := padRight s.toList 80

/-- The 3-byte key KEY of the header examples. -/
def keyKEY : List Char := ['K', 'E', 'Y']

/-- A header whose first record starts with KEYS (byte 8 is the `=`
sign, byte 3 is S) and whose second record is a plain KEY record. -/
def hdrC9a : Header := [lineOf "KEYS    = 1", lineOf "KEY     = 2", lineOf "END"]

/-- A header whose first record carries the 9-byte keyword KEYLONGXY
(byte 8 is Y) and whose second record is a plain KEY record. -/
def hdrC9b : Header := [lineOf "KEYLONGXY= 1", lineOf "KEY     = 2", lineOf "END"]

/-- A header without any KEY-prefixed record. -/
def hdrC9c : Header := [lineOf "OTHER   = 1", lineOf "END"]

/-- A 36-record header block holding a KEYS record (which shadows the
key KEY for the raw-prefix read path) and END. -/
def hdrC6 : Header :=
  lineOf "KEYS    =                    1" :: lineOf "END" :: List.replicate 34 blankLine

/-- A fresh 36-record header block: END, then blank padding. -/
def hdrE : Header := lineOf "END" :: List.replicate 35 blankLine

/-- The first 10 bytes of the record a fresh put writes into `hdrE`:
the key, the stale spaces, `=` at byte 8 and the untouched byte 9. -/
def keyHead : List Char := ['K', 'E', 'Y', ' ', ' ', ' ', ' ', ' ', '=', ' ']

/-- The header `DataCube_puthd_raw` produces from `hdrE`, the key KEY
and a 70-byte value buffer. -/
def hdrPut (buf : List Char) : Header :=
  (keyHead ++ buf) :: lineOf "END" :: List.replicate 34 blankLine

/-! ## Theorems -/

theorem exceeds_eq_true_iff (x : FV) (t : ℚ) : exceeds x t = true ↔ fvAbsGT x t := by
  cases x with
  | none =>
    simp only [exceeds, fvAbsGT]
    exact iff_of_false (by simp) (by rintro ⟨v, h, -⟩; cases h)
  | some v =>
    simp only [exceeds, fvAbsGT, Bool.or_eq_true, decide_eq_true_eq]
    constructor
    · rintro (h | h)
      · exact ⟨v, rfl, lt_abs.mpr (Or.inl h)⟩
      · exact ⟨v, rfl, lt_abs.mpr (Or.inr (by linarith))⟩
    · rintro ⟨w, hw, h⟩
      cases hw
      rcases lt_abs.mp h with h | h
      · exact Or.inl h
      · exact Or.inr (by linarith)

theorem exceeds_none (t : ℚ) : exceeds none t = false := rfl

/-- **C4.**  For every floating-point data cube, every integer mask cube
of identical axis sizes and every threshold > 0, the mask operation
(both `DataCube_mask` and `DataCube_mask_32`) succeeds and sets
`mask[i] = 1` at exactly those pixels with `|data[i]| > threshold`
(strictly); every other entry keeps its previous value, an entry that
was already 1 stays 1, and a NaN data pixel never satisfies the
condition. -/
theorem mask_sets_exactly_above_threshold
    (c : Cube) (mk : MaskCube) (t : ℚ)
    (hx : c.nx = mk.nx) (hy : c.ny = mk.ny) (hz : c.nz = mk.nz) (ht : 0 < t) :
    ∃ r, DataCube_mask c mk t = some r ∧
      DataCube_mask_32 c mk (some t) = some r ∧
      (∀ p, inBounds c.nx c.ny c.nz p →
        (fvAbsGT (c.data p) t → r.m p = 1) ∧
        (¬ fvAbsGT (c.data p) t → r.m p = mk.m p) ∧
        (c.data p = none → r.m p = mk.m p) ∧
        (mk.m p = 1 → r.m p = 1)) ∧
      (∀ p, ¬ inBounds c.nx c.ny c.nz p → r.m p = mk.m p) := by
  refine ⟨{ mk with m := fun q =>
      if (inBounds c.nx c.ny c.nz q ∧ exceeds (c.data q) t) then 1 else mk.m q },
    ?_, ?_, ?_, ?_⟩
  · unfold DataCube_mask
    rw [if_pos ⟨hx, hy, hz, ht⟩]
  · simp only [DataCube_mask_32]
    rw [if_pos ⟨hx, hy, hz, ht⟩]
  · intro p hp
    refine ⟨?_, ?_, ?_, ?_⟩
    · intro habs
      have he : exceeds (c.data p) t = true := (exceeds_eq_true_iff _ _).mpr habs
      show (if (inBounds c.nx c.ny c.nz p ∧ exceeds (c.data p) t = true) then (1 : ℤ)
          else mk.m p) = 1
      rw [if_pos ⟨hp, he⟩]
    · intro habs
      have he : ¬ (exceeds (c.data p) t = true) :=
        fun hh => habs ((exceeds_eq_true_iff _ _).mp hh)
      show (if (inBounds c.nx c.ny c.nz p ∧ exceeds (c.data p) t = true) then (1 : ℤ)
          else mk.m p) = mk.m p
      rw [if_neg (fun hc => he hc.2)]
    · intro hnan
      show (if (inBounds c.nx c.ny c.nz p ∧ exceeds (c.data p) t = true) then (1 : ℤ)
          else mk.m p) = mk.m p
      refine if_neg (fun hc => ?_)
      rw [hnan] at hc
      exact absurd hc.2 (by simp [exceeds])
    · intro hone
      show (if (inBounds c.nx c.ny c.nz p ∧ exceeds (c.data p) t = true) then (1 : ℤ)
          else mk.m p) = 1
      by_cases hc : (inBounds c.nx c.ny c.nz p ∧ exceeds (c.data p) t = true)
      · rw [if_pos hc]
      · rw [if_neg hc]
        exact hone
  · intro p hp
    show (if (inBounds c.nx c.ny c.nz p ∧ exceeds (c.data p) t = true) then (1 : ℤ)
        else mk.m p) = mk.m p
    rw [if_neg (fun hc => hp hc.1)]

/-- **C4 witness.** -/
theorem mask_sets_exactly_above_threshold_witness :
    nanCube2.nx = zeroMask2.nx ∧ nanCube2.ny = zeroMask2.ny ∧ nanCube2.nz = zeroMask2.nz ∧
    (0 : ℚ) < 2 ∧
    (∃ r, DataCube_mask nanCube2 zeroMask2 2 = some r ∧
      DataCube_mask_32 nanCube2 zeroMask2 (some 2) = some r ∧
      (∀ p, inBounds nanCube2.nx nanCube2.ny nanCube2.nz p →
        (fvAbsGT (nanCube2.data p) 2 → r.m p = 1) ∧
        (¬ fvAbsGT (nanCube2.data p) 2 → r.m p = zeroMask2.m p) ∧
        (nanCube2.data p = none → r.m p = zeroMask2.m p) ∧
        (zeroMask2.m p = 1 → r.m p = 1)) ∧
      (∀ p, ¬ inBounds nanCube2.nx nanCube2.ny nanCube2.nz p → r.m p = zeroMask2.m p)) :=
  ⟨rfl, rfl, rfl, by norm_num,
    mask_sets_exactly_above_threshold nanCube2 zeroMask2 2 rfl rfl rfl (by norm_num)⟩

/-- **C5.**  `DataCube_mask` is idempotent - masking again with the
same data, mask and threshold returns the mask unchanged - and monotone
in the threshold: with the same data and initial mask, every pixel set
under threshold `t2` is also set under any threshold `t1 ≤ t2`. -/
theorem mask_idempotent_and_monotone
    (c : Cube) (mk : MaskCube) (t t1 t2 : ℚ)
    (hx : c.nx = mk.nx) (hy : c.ny = mk.ny) (hz : c.nz = mk.nz)
    (ht : 0 < t) (ht1 : 0 < t1) (hle : t1 ≤ t2) :
    (∀ r, DataCube_mask c mk t = some r → DataCube_mask c r t = some r) ∧
    (∀ r1 r2, DataCube_mask c mk t1 = some r1 → DataCube_mask c mk t2 = some r2 →
      ∀ p, r2.m p = 1 → r1.m p = 1) := by
  constructor
  · intro r hr
    unfold DataCube_mask at hr ⊢
    rw [if_pos ⟨hx, hy, hz, ht⟩] at hr
    obtain rfl := Option.some.inj hr
    rw [if_pos (show c.nx = mk.nx ∧ c.ny = mk.ny ∧ c.nz = mk.nz ∧ 0 < t from
      ⟨hx, hy, hz, ht⟩)]
    refine congrArg some ?_
    simp only [MaskCube.mk.injEq, true_and]
    funext q
    by_cases hc : (inBounds c.nx c.ny c.nz q ∧ exceeds (c.data q) t = true)
    · simp only [if_pos hc]
    · simp only [if_neg hc]
  · intro r1 r2 h1 h2 p hp
    have ht2 : (0 : ℚ) < t2 := lt_of_lt_of_le ht1 hle
    unfold DataCube_mask at h1 h2
    rw [if_pos ⟨hx, hy, hz, ht1⟩] at h1
    rw [if_pos ⟨hx, hy, hz, ht2⟩] at h2
    obtain rfl := Option.some.inj h1
    obtain rfl := Option.some.inj h2
    have hp2 : (if (inBounds c.nx c.ny c.nz p ∧ exceeds (c.data p) t2 = true) then (1 : ℤ)
        else mk.m p) = 1 := hp
    show (if (inBounds c.nx c.ny c.nz p ∧ exceeds (c.data p) t1 = true) then (1 : ℤ)
        else mk.m p) = 1
    by_cases hc : (inBounds c.nx c.ny c.nz p ∧ exceeds (c.data p) t2 = true)
    · rcases (exceeds_eq_true_iff _ _).mp hc.2 with ⟨v, hv, hgt⟩
      have he1 : exceeds (c.data p) t1 = true :=
        (exceeds_eq_true_iff _ _).mpr ⟨v, hv, lt_of_le_of_lt hle hgt⟩
      rw [if_pos ⟨hc.1, he1⟩]
    · rw [if_neg hc] at hp2
      by_cases hc1 : (inBounds c.nx c.ny c.nz p ∧ exceeds (c.data p) t1 = true)
      · rw [if_pos hc1]
      · rw [if_neg hc1]
        exact hp2

/-- **C5 witness.** -/
theorem mask_idempotent_and_monotone_witness :
    negCube2.nx = zeroMask2.nx ∧ (0 : ℚ) < 1 ∧ (0 : ℚ) < 3 ∧ (3 : ℚ) ≤ 5 ∧
    ((∀ r, DataCube_mask negCube2 zeroMask2 1 = some r →
        DataCube_mask negCube2 r 1 = some r) ∧
      (∀ r1 r2, DataCube_mask negCube2 zeroMask2 3 = some r1 →
        DataCube_mask negCube2 zeroMask2 5 = some r2 →
        ∀ p, r2.m p = 1 → r1.m p = 1)) :=
  ⟨rfl, by norm_num, by norm_num, by norm_num,
    mask_idempotent_and_monotone negCube2 zeroMask2 1 3 5 rfl rfl rfl
      (by norm_num) (by norm_num) (by norm_num)⟩

theorem padGet_zero (n : ℕ) (w : ℤ) :
    padGet (fun _ => (some 0 : FV)) n w = 0 := by
  unfold padGet
  split <;> simp

/-- **C10 counterexample.**  The claim "for every floating-point cube,
calling `DataCube_boxcar` with radius 0 does not leave the data
unchanged" fails on an all-zero cube: the promoted width-3 boxcar maps
it to itself. -/
theorem boxcar_radius0_zero_cube_unchanged :
    DataCube_boxcar zeroCube12 0 = zeroCube12 := by
  have hdata : (DataCube_boxcar zeroCube12 0).data = zeroCube12.data := by
    funext p
    by_cases hp : inBounds zeroCube12.nx zeroCube12.ny zeroCube12.nz p
    · obtain ⟨x, y, z⟩ := p
      have hx : x = 0 := Nat.lt_one_iff.mp hp.1
      have hy : y = 0 := Nat.lt_one_iff.mp hp.2.1
      have hz : z < 2 := hp.2.2
      subst hx
      subst hy
      interval_cases z
      · with_unfolding_all decide
      · with_unfolding_all decide
    · exact if_neg hp
  calc DataCube_boxcar zeroCube12 0
      = { zeroCube12 with data := (DataCube_boxcar zeroCube12 0).data } := rfl
    _ = { zeroCube12 with data := zeroCube12.data } := by rw [hdata]
    _ = zeroCube12 := rfl

/-- **C10 (amended).**  `DataCube_boxcar` promotes every radius below 1
to 1, so radius 0 applies exactly the width-3 boxcar of radius 1 - an
operation that does change the data of some cubes - and inside
`DataCube_run_scfind` a spectral kernel `k_z = 1` (radius `1/2 = 0`)
smooths every spectrum with that width-3 boxcar instead of acting as
the identity. -/
theorem boxcar_radius0_promoted_to_width3 :
    (∀ c : Cube, DataCube_boxcar c 0 = DataCube_boxcar c 1) ∧
    DataCube_boxcar oneCube1 0 ≠ oneCube1 ∧
    (∀ (c : Cube) (mk : MaskCube) (repl : FV),
      scSmoothWork c mk repl 0 1 =
        DataCube_boxcar (DataCube_set_masked_32 c mk repl) 1) := by
  have hpromote : ∀ c : Cube, DataCube_boxcar c 0 = DataCube_boxcar c 1 := by
    intro c
    rfl
  refine ⟨hpromote, ?_, ?_⟩
  · intro h
    have h2 := congrArg (fun c => c.data (0, 0, 0)) h
    have h3 : (DataCube_boxcar oneCube1 0).data (0, 0, 0) = some (1 / 3) := by
      with_unfolding_all decide
    have h4 : oneCube1.data (0, 0, 0) = some 1 := rfl
    simp only at h2
    rw [h3, h4] at h2
    have h5 : (1 / 3 : ℚ) = 1 := Option.some.inj h2
    norm_num at h5
  · intro c mk repl
    show (if (1 : ℕ) ≠ 0 then
        DataCube_boxcar
          (if (0 : ℚ) ≠ 0 then
            DataCube_gaussian (DataCube_set_masked_32 c mk repl) (0 / FWHM_CONST)
          else DataCube_set_masked_32 c mk repl) (1 / 2)
      else (if (0 : ℚ) ≠ 0 then
            DataCube_gaussian (DataCube_set_masked_32 c mk repl) (0 / FWHM_CONST)
          else DataCube_set_masked_32 c mk repl)) =
      DataCube_boxcar (DataCube_set_masked_32 c mk repl) 1
    rw [if_neg (show ¬ ((0 : ℚ) ≠ 0) by norm_num), if_pos (show (1 : ℕ) ≠ 0 by norm_num)]
    exact hpromote _

set_option maxRecDepth 40000 in
/-- **C7 counterexample.**  On the all-zero 4×4×4 cube with
`kxy = [0.0]`, `kz = [0]`, `t = 3.5`, the S+C finder does not return an
all-zero mask - it aborts (the initial threshold `t·σ₀ = 0` fails the
`ensure(threshold > 0.0)` of `DataCube_mask_32`), so the linker and the
"no sources" report are never reached. -/
theorem scfind_zero_cube_aborts :
    DataCube_run_scfind zeroCube4 [0] [0] (7 / 2) 0 = none := by
  have h : (DataCube_run_scfind zeroCube4 [0] [0] (7 / 2) 0).isNone = true := by
    with_unfolding_all decide
  exact Option.isNone_iff_eq_none.mp h

set_option maxRecDepth 40000 in
/-- **C7 (amended).**  For the all-zero 4×4×4 cube the initial noise
estimate is exactly 0, the scaled threshold `3.5·σ₀` is therefore 0,
the initial `DataCube_mask_32` pass aborts on its positive-threshold
`ensure`, and the S+C finder consequently terminates the run with an
error instead of returning a mask of zeros. -/
theorem scfind_zero_cube_amended :
    scRms0 zeroCube4 = some 0 ∧
    DataCube_mask_32 zeroCube4 (MaskCube.blank 4 4 4) (fvScale (7 / 2) (some 0)) = none ∧
    DataCube_run_scfind zeroCube4 [0] [0] (7 / 2) 0 = none := by
  refine ⟨by with_unfolding_all decide, ?_, ?_⟩
  · simp [DataCube_mask_32, fvScale]
  · have h : (DataCube_run_scfind zeroCube4 [0] [0] (7 / 2) 0).isNone = true := by
      with_unfolding_all decide
    exact Option.isNone_iff_eq_none.mp h

theorem mask32_mem_one (c : Cube) (mk : MaskCube) (t : FV) (r : MaskCube) (p : Pos)
    (h : DataCube_mask_32 c mk t = some r) (h1 : r.m p = 1) :
    exceedsF (c.data p) t = true ∨ mk.m p = 1 := by
  cases t with
  | none => simp [DataCube_mask_32] at h
  | some tq =>
    simp only [DataCube_mask_32] at h
    by_cases hg : (c.nx = mk.nx ∧ c.ny = mk.ny ∧ c.nz = mk.nz ∧ 0 < tq)
    · rw [if_pos hg] at h
      obtain rfl := Option.some.inj h
      have h2 : (if (inBounds c.nx c.ny c.nz p ∧ exceeds (c.data p) tq = true) then (1 : ℤ)
          else mk.m p) = 1 := h1
      by_cases hc : (inBounds c.nx c.ny c.nz p ∧ exceeds (c.data p) tq = true)
      · exact Or.inl hc.2
      · rw [if_neg hc] at h2
        exact Or.inr h2
    · rw [if_neg hg] at h
      cases h

theorem scStep_none (c : Cube) (rms : FV) (t mS : ℚ) (s : ℕ) (k : ℚ × ℕ) :
    scStep c rms t mS s none k = none := rfl

theorem scStep_some_elim (c : Cube) (rms : FV) (t mS : ℚ) (s : ℕ) (mk r : MaskCube)
    (k : ℚ × ℕ) (h : scStep c rms t mS s (some mk) k = some r) :
    (¬ (k.1 ≠ 0 ∨ k.2 ≠ 0) ∧ r = mk) ∨
    ((k.1 ≠ 0 ∨ k.2 ≠ 0) ∧
      DataCube_mask_32 (scSmoothWork c mk (fvScale mS rms) k.1 k.2) mk
        (fvScale t (DataCube_stat_std (scSmoothWork c mk (fvScale mS rms) k.1 k.2) 0 s (-1)))
        = some r) := by
  simp only [scStep] at h
  by_cases hnz : (k.1 ≠ 0 ∨ k.2 ≠ 0)
  · rw [if_pos hnz] at h
    exact Or.inr ⟨hnz, h⟩
  · rw [if_neg hnz] at h
    exact Or.inl ⟨hnz, (Option.some.inj h).symm⟩

theorem scMaskAfter_succ (c : Cube) (kxy : List ℚ) (kz : List ℕ) (t mScale : ℚ) (k : ℕ)
    (hk : k < (kernelPairs kxy kz).length) :
    scMaskAfter c kxy kz t mScale (k + 1) =
      scStep c (scRms0 c) t mScale (sampleRms (c.nx * c.ny * c.nz))
        (scMaskAfter c kxy kz t mScale k) ((kernelPairs kxy kz).getD k (0, 0)) := by
  unfold scMaskAfter
  rw [List.take_succ, List.foldl_append]
  have hget : (kernelPairs kxy kz)[k]? = some ((kernelPairs kxy kz).getD k (0, 0)) := by
    rw [List.getD_eq_getElem?_getD, List.getElem?_eq_getElem hk]
    rfl
  rw [hget]
  rfl

/-- Induction core of C1: any 1 in the mask after `k` kernel iterations
was set by the initial pass or by one of the first `k` iterations. -/
theorem scMaskAfter_one_source (c : Cube) (kxy : List ℚ) (kz : List ℕ) (t mScale : ℚ)
    (p : Pos) :
    ∀ k, k ≤ (kernelPairs kxy kz).length →
    ∀ r, scMaskAfter c kxy kz t mScale k = some r → r.m p = 1 →
      exceedsF (c.data p) (fvScale t (scRms0 c)) = true ∨
      ∃ j, j < k ∧
        exceedsF ((scSmoothedAt c kxy kz t mScale j).data p)
          (fvScale t (scRmsAt c kxy kz t mScale j)) = true := by
  intro k
  induction k with
  | zero =>
    intro _ r hr h1
    left
    have h0 : DataCube_mask_32 c (MaskCube.blank c.nx c.ny c.nz)
        (fvScale t (scRms0 c)) = some r := hr
    rcases mask32_mem_one _ _ _ _ _ h0 h1 with h | h
    · exact h
    · exact absurd h (by simp [MaskCube.blank])
  | succ k ih =>
    intro hk r hr h1
    have hk2 : k < (kernelPairs kxy kz).length := hk
    rw [scMaskAfter_succ c kxy kz t mScale k hk2] at hr
    cases hacc : scMaskAfter c kxy kz t mScale k with
    | none =>
      rw [hacc, scStep_none] at hr
      cases hr
    | some mk =>
      rw [hacc] at hr
      rcases scStep_some_elim _ _ _ _ _ _ _ _ hr with ⟨-, rfl⟩ | ⟨-, hmask⟩
      · rcases ih (le_of_lt hk2) r hacc h1 with h2 | ⟨j, hj, h2⟩
        · exact Or.inl h2
        · exact Or.inr ⟨j, Nat.lt_succ_of_lt hj, h2⟩
      · rcases mask32_mem_one _ _ _ _ p hmask h1 with h2 | h2
        · right
          refine ⟨k, Nat.lt_succ_self k, ?_⟩
          have hsm : scSmoothedAt c kxy kz t mScale k =
              scSmoothWork c mk (fvScale mScale (scRms0 c))
                ((kernelPairs kxy kz).getD k (0, 0)).1
                ((kernelPairs kxy kz).getD k (0, 0)).2 := by
            unfold scSmoothedAt
            rw [hacc]
            rfl
          rw [hsm]
          unfold scRmsAt
          rw [hsm]
          exact h2
        · rcases ih (le_of_lt hk2) mk hacc h2 with h3 | ⟨j, hj, h3⟩
          · exact Or.inl h3
          · exact Or.inr ⟨j, Nat.lt_succ_of_lt hj, h3⟩

/-- **C1.**  Whenever `DataCube_run_scfind` returns a mask in which
pixel `p` is 1, either `|C[p]|` strictly exceeds `threshold·σ₀` (σ₀
the initial noise estimate of the cube), or for some kernel pair of the
grid the smoothed working copy produced in that iteration strictly
exceeds `threshold` times its own noise estimate at `p`; no pixel is 1
without exceeding one of these thresholds. -/
theorem scfind_mask_pixels_exceed_a_threshold
    (c : Cube) (kxy : List ℚ) (kz : List ℕ) (t mScale : ℚ) (p : Pos)
    (h1 : (DataCube_run_scfind c kxy kz t mScale).map (fun mk => mk.m p) = some 1) :
    exceedsF (c.data p) (fvScale t (scRms0 c)) = true ∨
    ∃ j, j < (kernelPairs kxy kz).length ∧
      exceedsF ((scSmoothedAt c kxy kz t mScale j).data p)
        (fvScale t (scRmsAt c kxy kz t mScale j)) = true := by
  unfold DataCube_run_scfind at h1
  by_cases hg : (0 ≤ t ∧ kxy ≠ [] ∧ kz ≠ [])
  · rw [if_pos hg] at h1
    rcases Option.map_eq_some'.mp h1 with ⟨r, hr, hrp⟩
    exact scMaskAfter_one_source c kxy kz t mScale p _ le_rfl r hr hrp
  · rw [if_neg hg] at h1
    cases h1

set_option maxRecDepth 40000 in
/-- **C1 witness.** -/
theorem scfind_mask_pixels_exceed_a_threshold_witness :
    (DataCube_run_scfind negCube2 [0] [0] (1 / 2) 0).map (fun mk => mk.m (0, 0, 0))
      = some 1 ∧
    (exceedsF (negCube2.data (0, 0, 0)) (fvScale (1 / 2) (scRms0 negCube2)) = true ∨
      ∃ j, j < (kernelPairs [(0 : ℚ)] [(0 : ℕ)]).length ∧
        exceedsF ((scSmoothedAt negCube2 [0] [0] (1 / 2) 0 j).data (0, 0, 0))
          (fvScale (1 / 2) (scRmsAt negCube2 [0] [0] (1 / 2) 0 j)) = true) :=
  ⟨by with_unfolding_all decide,
    scfind_mask_pixels_exceed_a_threshold negCube2 [0] [0] (1 / 2) 0 (0, 0, 0)
      (by with_unfolding_all decide)⟩

theorem LinkerPar_update_length (lp : List LPRow) (i x y z : ℕ) :
    (LinkerPar_update lp i x y z).length = lp.length := by
  unfold LinkerPar_update
  cases lp.get? i <;> simp

theorem maskEvolves_refl (label : ℤ) (m : Pos → ℤ) : maskEvolves label m m :=
  fun _ => Or.inl rfl

theorem maskEvolves_trans (label : ℤ) (hlab : label ≠ 1) {m0 m1 m2 : Pos → ℤ}
    (h01 : maskEvolves label m0 m1) (h12 : maskEvolves label m1 m2) :
    maskEvolves label m0 m2 := by
  intro q
  rcases h12 q with h | ⟨h1, h2⟩
  · rw [h]
    exact h01 q
  · rcases h01 q with h0 | ⟨h0a, h0b⟩
    · rw [h0] at h1
      exact Or.inr ⟨h1, h2⟩
    · rw [h0b] at h1
      exact absurd h1 hlab

theorem maskEvolves_mset (label : ℤ) {m0 m : Pos → ℤ} (b : Pos)
    (hev : maskEvolves label m0 m) (hlab : label ≠ 1) (hb : m b = 1) :
    maskEvolves label m0 (msetP m b label) := by
  intro q
  by_cases hq : q = b
  · subst hq
    rcases hev q with h | ⟨h1, h2⟩
    · rw [h] at hb
      exact Or.inr ⟨hb, by simp [msetP]⟩
    · rw [h2] at hb
      exact absurd hb hlab
  · simp only [msetP, if_neg hq]
    exact hev q

theorem foldl_preserve {α β : Type _} {P : α → Prop} (f : α → β → α) (l : List β) (a : α)
    (h0 : P a) (hstep : ∀ x b, b ∈ l → P x → P (f x b)) : P (l.foldl f a) := by
  induction l generalizing a with
  | nil => exact h0
  | cons b bs ih =>
    exact ih (f a b) (hstep a b (List.mem_cons_self b bs) h0)
      (fun x c hc hx => hstep x c (List.mem_cons_of_mem b hc) hx)

theorem markNbF_evolves (cfg : LinkPar) (label : ℤ) (hlab : label ≠ 1) :
    ∀ (fuel : ℕ) (st : LState) (p : Pos),
      maskEvolves label st.m (markNbF cfg label fuel st p).m ∧
      (markNbF cfg label fuel st p).lpar.length = st.lpar.length := by
  intro fuel
  induction fuel with
  | zero =>
    intro st p
    simp only [markNbF]
    exact ⟨maskEvolves_refl _ _, trivial⟩
  | succ fuel ih =>
    intro st p
    have hunfold : markNbF cfg label (fuel + 1) st p =
        (boxList cfg p).foldl (fun s q => markStep cfg label fuel p s q) st := by
      rw [markNbF]
    rw [hunfold]
    refine foldl_preserve
      (P := fun (s : LState) => maskEvolves label st.m s.m ∧ s.lpar.length = st.lpar.length)
      _ _ _ ⟨maskEvolves_refl _ _, rfl⟩ ?_
    intro s q _ hP
    unfold markStep
    by_cases hskip : skipQ cfg p q
    · rw [if_pos hskip]
      exact hP
    · rw [if_neg hskip]
      by_cases h1 : s.m q = 1
      · rw [if_pos h1]
        obtain ⟨hev2, hlen2⟩ := ih
          ⟨msetP s.m q label, LinkerPar_update s.lpar label.toNat q.1 q.2.1 q.2.2⟩ q
        refine ⟨maskEvolves_trans label hlab (maskEvolves_mset label q hP.1 hlab h1) hev2, ?_⟩
        rw [hlen2]
        show (LinkerPar_update s.lpar label.toNat q.1 q.2.1 q.2.2).length = st.lpar.length
        rw [LinkerPar_update_length]
        exact hP.2
      · rw [if_neg h1]
        exact hP

theorem markNbF_reach (cfg : LinkPar) (label : ℤ) (hlab : label ≠ 1) (m0 : Pos → ℤ) :
    ∀ (fuel : ℕ) (st : LState) (p : Pos), maskEvolves label m0 st.m →
      ∀ q, (markNbF cfg label fuel st p).m q ≠ st.m q → linkReach cfg m0 p q := by
  intro fuel
  induction fuel with
  | zero =>
    intro st p _ q hq
    simp only [markNbF] at hq
    exact absurd rfl hq
  | succ fuel ih =>
    intro st p hev q hq
    have hunfold : markNbF cfg label (fuel + 1) st p =
        (boxList cfg p).foldl (fun s q => markStep cfg label fuel p s q) st := by
      rw [markNbF]
    rw [hunfold] at hq
    refine (foldl_preserve
      (P := fun (s : LState) => maskEvolves label m0 s.m ∧ maskEvolves label st.m s.m ∧
        ∀ r, s.m r ≠ st.m r → linkReach cfg m0 p r)
      (fun s q => markStep cfg label fuel p s q) (boxList cfg p) st
      ⟨hev, maskEvolves_refl _ _, fun r hr => absurd rfl hr⟩ ?_).2.2 q hq
    intro s b hb hP
    unfold markStep
    by_cases hskip : skipQ cfg p b
    · rw [if_pos hskip]
      exact hP
    · rw [if_neg hskip]
      by_cases h1 : s.m b = 1
      · rw [if_pos h1]
        have hm0b : m0 b = 1 := by
          rcases hP.1 b with h | ⟨h2, -⟩
          · rw [h] at h1
            exact h1
          · exact h2
        have hskipf : skipQ cfg p b = false := by
          cases hsk : skipQ cfg p b
          · rfl
          · exact absurd hsk hskip
        have hstepb : linkReach cfg m0 p b :=
          Relation.TransGen.single ⟨⟨hb, hskipf⟩, hm0b⟩
        have hev2 : maskEvolves label m0
            (⟨msetP s.m b label,
              LinkerPar_update s.lpar label.toNat b.1 b.2.1 b.2.2⟩ : LState).m :=
          maskEvolves_mset label b hP.1 hlab h1
        have hevst2 : maskEvolves label st.m
            (⟨msetP s.m b label,
              LinkerPar_update s.lpar label.toNat b.1 b.2.1 b.2.2⟩ : LState).m :=
          maskEvolves_mset label b hP.2.1 hlab h1
        refine ⟨maskEvolves_trans label hlab hev2
            (markNbF_evolves cfg label hlab fuel _ b).1,
          maskEvolves_trans label hlab hevst2
            (markNbF_evolves cfg label hlab fuel _ b).1, ?_⟩
        intro r hr
        by_cases hnew : (markNbF cfg label fuel
            ⟨msetP s.m b label, LinkerPar_update s.lpar label.toNat b.1 b.2.1 b.2.2⟩ b).m r =
            msetP s.m b label r
        · rw [hnew] at hr
          by_cases hrb : r = b
          · subst hrb
            exact hstepb
          · have heq : msetP s.m b label r = s.m r := by
              simp [msetP, if_neg hrb]
            rw [heq] at hr
            exact hP.2.2 r hr
        · exact Relation.TransGen.trans hstepb (ih _ b hev2 r hnew)
      · rw [if_neg h1]
        exact hP

theorem markStep_evolves (cfg : LinkPar) (label : ℤ) (hlab : label ≠ 1)
    (fuel : ℕ) (p : Pos) (s : LState) (q : Pos) :
    maskEvolves label s.m (markStep cfg label fuel p s q).m := by
  unfold markStep
  by_cases hskip : skipQ cfg p q
  · rw [if_pos hskip]
    exact maskEvolves_refl _ _
  · rw [if_neg hskip]
    by_cases h1 : s.m q = 1
    · rw [if_pos h1]
      exact maskEvolves_trans label hlab
        (maskEvolves_mset label q (maskEvolves_refl _ _) hlab h1)
        (markNbF_evolves cfg label hlab fuel _ q).1
    · rw [if_neg h1]
      exact maskEvolves_refl _ _

theorem foldl_markStep_keeps_label (cfg : LinkPar) (label : ℤ) (hlab : label ≠ 1)
    (fuel : ℕ) (p : Pos) :
    ∀ (l : List Pos) (st : LState) (q : Pos), st.m q = label →
      ((l.foldl (fun s b => markStep cfg label fuel p s b) st).m q = label) := by
  intro l
  induction l with
  | nil =>
    intro st q h
    exact h
  | cons b bs ih =>
    intro st q h
    apply ih
    rcases (markStep_evolves cfg label hlab fuel p st b) q with h2 | ⟨h1, h2⟩
    · rw [h2]
      exact h
    · exact h2

theorem foldl_markStep_sets (cfg : LinkPar) (label : ℤ) (hlab : label ≠ 1)
    (fuel : ℕ) (p : Pos) :
    ∀ (l : List Pos) (st : LState) (q : Pos), q ∈ l → skipQ cfg p q = false →
      st.m q = 1 ∨ st.m q = label →
      ((l.foldl (fun s b => markStep cfg label fuel p s b) st).m q = label) := by
  intro l
  induction l with
  | nil =>
    intro st q h
    cases h
  | cons b bs ih =>
    intro st q hmem hskip hval
    rcases List.mem_cons.mp hmem with rfl | hmem2
    · have hstep : (markStep cfg label fuel p st q).m q = label := by
        unfold markStep
        rw [if_neg (by simp [hskip])]
        rcases hval with h1 | hl
        · rw [if_pos h1]
          rcases (markNbF_evolves cfg label hlab fuel
              ⟨msetP st.m q label, LinkerPar_update st.lpar label.toNat q.1 q.2.1 q.2.2⟩
              q).1 q with h2 | ⟨-, h2b⟩
          · rw [h2]
            simp [msetP]
          · exact h2b
        · rw [if_neg (by rw [hl]; exact hlab)]
          exact hl
      exact foldl_markStep_keeps_label cfg label hlab fuel p bs _ q hstep
    · apply ih _ q hmem2 hskip
      rcases (markStep_evolves cfg label hlab fuel p st b) q with h2 | ⟨h1, h2⟩
      · rw [h2]
        exact hval
      · exact Or.inr h2

/-- **C2 (amended).**  During the neighbourhood expansion of the linker
around `(x,y,z)`, a neighbour of the clipped box is skipped exactly
when its squared horizontal distance satisfies `(Δx)² + (Δy)² < rx·ry`
(the inequality is the reverse of the claimed one); every non-skipped
neighbour of the box whose mask value is 1 is set to the label and
expansion continues from it, every mask change the call makes turns a 1
into the label of a pixel reachable through a chain of in-box,
non-skipped, 1-valued steps, and the table keeps one row per label. -/
theorem mark_neighbours_skip_and_link
    (cfg : LinkPar) (label : ℤ) (st : LState) (p : Pos) (hlab : label ≠ 1) :
    (∀ q, (DataCube_mark_neighbours cfg label st p).m q = st.m q ∨
      (st.m q = 1 ∧ (DataCube_mark_neighbours cfg label st p).m q = label ∧
        linkReach cfg st.m p q)) ∧
    (∀ q, q ∈ boxList cfg p → skipQ cfg p q = false → st.m q = 1 →
      (DataCube_mark_neighbours cfg label st p).m q = label) ∧
    (DataCube_mark_neighbours cfg label st p).lpar.length = st.lpar.length := by
  refine ⟨?_, ?_, (markNbF_evolves cfg label hlab _ st p).2⟩
  · intro q
    rcases (markNbF_evolves cfg label hlab (onesCount cfg st.m + 1) st p).1 q with
      h | ⟨h1, h2⟩
    · exact Or.inl h
    · refine Or.inr ⟨h1, h2, ?_⟩
      refine markNbF_reach cfg label hlab st.m (onesCount cfg st.m + 1) st p
        (maskEvolves_refl _ _) q ?_
      rw [h2, h1]
      exact hlab
  · intro q hq hskip hval
    show (markNbF cfg label (onesCount cfg st.m + 1) st p).m q = label
    rw [markNbF]
    exact foldl_markStep_sets cfg label hlab (onesCount cfg st.m) p
      (boxList cfg p) st q hq hskip (Or.inl hval)

/-- **C2 witness.** -/
theorem mark_neighbours_skip_and_link_witness :
    (2 : ℤ) ≠ 1 ∧
    ((∀ q, (DataCube_mark_neighbours ⟨2, 2, 1, 1, 1, 0⟩ 2
        ⟨msetP (fun p => if p.1 < 2 ∧ p.2.1 = 0 ∧ p.2.2 = 0 then 1 else 0) (1, 0, 0) 2,
          LinkerPar_push (LinkerPar_push (LinkerPar_push [] 0 0 0) 0 0 0) 1 0 0⟩
        (1, 0, 0)).m q =
        msetP (fun p => if p.1 < 2 ∧ p.2.1 = 0 ∧ p.2.2 = 0 then 1 else 0) (1, 0, 0) 2 q ∨
      (msetP (fun p => if p.1 < 2 ∧ p.2.1 = 0 ∧ p.2.2 = 0 then 1 else 0) (1, 0, 0) 2 q = 1 ∧
        (DataCube_mark_neighbours ⟨2, 2, 1, 1, 1, 0⟩ 2
        ⟨msetP (fun p => if p.1 < 2 ∧ p.2.1 = 0 ∧ p.2.2 = 0 then 1 else 0) (1, 0, 0) 2,
          LinkerPar_push (LinkerPar_push (LinkerPar_push [] 0 0 0) 0 0 0) 1 0 0⟩
        (1, 0, 0)).m q = 2 ∧
        linkReach ⟨2, 2, 1, 1, 1, 0⟩
          (msetP (fun p => if p.1 < 2 ∧ p.2.1 = 0 ∧ p.2.2 = 0 then 1 else 0) (1, 0, 0) 2)
          (1, 0, 0) q)) ∧
      (∀ q, q ∈ boxList ⟨2, 2, 1, 1, 1, 0⟩ (1, 0, 0) →
        skipQ ⟨2, 2, 1, 1, 1, 0⟩ (1, 0, 0) q = false →
        msetP (fun p => if p.1 < 2 ∧ p.2.1 = 0 ∧ p.2.2 = 0 then 1 else 0) (1, 0, 0) 2 q = 1 →
        (DataCube_mark_neighbours ⟨2, 2, 1, 1, 1, 0⟩ 2
        ⟨msetP (fun p => if p.1 < 2 ∧ p.2.1 = 0 ∧ p.2.2 = 0 then 1 else 0) (1, 0, 0) 2,
          LinkerPar_push (LinkerPar_push (LinkerPar_push [] 0 0 0) 0 0 0) 1 0 0⟩
        (1, 0, 0)).m q = 2) ∧
      (DataCube_mark_neighbours ⟨2, 2, 1, 1, 1, 0⟩ 2
        ⟨msetP (fun p => if p.1 < 2 ∧ p.2.1 = 0 ∧ p.2.2 = 0 then 1 else 0) (1, 0, 0) 2,
          LinkerPar_push (LinkerPar_push (LinkerPar_push [] 0 0 0) 0 0 0) 1 0 0⟩
        (1, 0, 0)).lpar.length =
        (LinkerPar_push (LinkerPar_push (LinkerPar_push [] 0 0 0) 0 0 0) 1 0 0).length) :=
  ⟨by norm_num,
    mark_neighbours_skip_and_link ⟨2, 2, 1, 1, 1, 0⟩ 2
      ⟨msetP (fun p => if p.1 < 2 ∧ p.2.1 = 0 ∧ p.2.2 = 0 then 1 else 0) (1, 0, 0) 2,
        LinkerPar_push (LinkerPar_push (LinkerPar_push [] 0 0 0) 0 0 0) 1 0 0⟩
      (1, 0, 0) (by norm_num)⟩

set_option maxRecDepth 40000 in
/-- **C2 counterexample.**  Around `(1,0,0)` with merge radii `(1,1,0)`
on a 2×2×1 mask whose row `y = 0` is all 1, the neighbour `(0,0,0)` has
squared horizontal distance `1 ≥ rx·ry = 1`, so the claim says it is
skipped; the code does not skip it (`skipQ` is false: the code skips on
`< rx·ry`) and links it to the label 2. -/
theorem mark_neighbours_skip_claim_false :
    ((1 : ℤ) - 0) ^ 2 + ((0 : ℤ) - 0) ^ 2 ≥ (1 : ℤ) * 1 ∧
    skipQ ⟨2, 2, 1, 1, 1, 0⟩ (1, 0, 0) (0, 0, 0) = false ∧
    (DataCube_mark_neighbours ⟨2, 2, 1, 1, 1, 0⟩ 2
      ⟨msetP (fun p => if p.1 < 2 ∧ p.2.1 = 0 ∧ p.2.2 = 0 then 1 else 0) (1, 0, 0) 2,
        LinkerPar_push (LinkerPar_push (LinkerPar_push [] 0 0 0) 0 0 0) 1 0 0⟩
      (1, 0, 0)).m (0, 0, 0) = 2 :=
  ⟨by norm_num, by with_unfolding_all decide, by with_unfolding_all decide⟩

theorem mem_coordsDesc (nx ny nz : ℕ) (p : Pos) :
    p ∈ coordsDesc nx ny nz ↔ inBounds nx ny nz p := by
  obtain ⟨x, y, z⟩ := p
  simp only [coordsDesc, List.mem_flatMap, List.mem_reverse, List.mem_range, List.mem_map,
    inBounds, Prod.mk.injEq]
  constructor
  · rintro ⟨z1, hz1, y1, hy1, x1, hx1, hx, hy, hz⟩
    subst hx
    subst hy
    subst hz
    exact ⟨hx1, hy1, hz1⟩
  · rintro ⟨hx, hy, hz⟩
    exact ⟨z, hz, y, hy, x, hx, rfl, rfl, rfl⟩

theorem coordsDesc_nodup (nx ny nz : ℕ) : (coordsDesc nx ny nz).Nodup := by
  unfold coordsDesc
  rw [List.nodup_flatMap]
  refine ⟨?_, ?_⟩
  · intro z _
    rw [List.nodup_flatMap]
    refine ⟨?_, ?_⟩
    · intro y _
      refine List.Nodup.map ?_ (List.nodup_reverse.mpr (List.nodup_range _))
      intro a b hab
      exact ((Prod.mk.injEq _ _ _ _).mp hab).1
    · refine List.Pairwise.imp ?_ (List.nodup_reverse.mpr (List.nodup_range _))
      intro y1 y2 hne q hq1 hq2
      simp only [List.mem_map] at hq1 hq2
      obtain ⟨x1, -, rfl⟩ := hq1
      obtain ⟨x2, -, h2⟩ := hq2
      simp only [Prod.mk.injEq] at h2
      exact hne h2.2.1.symm
  · refine List.Pairwise.imp ?_ (List.nodup_reverse.mpr (List.nodup_range _))
    intro z1 z2 hne q hq1 hq2
    simp only [List.mem_flatMap, List.mem_map] at hq1 hq2
    obtain ⟨y1, -, x1, -, rfl⟩ := hq1
    obtain ⟨y2, -, x2, -, h2⟩ := hq2
    simp only [Prod.mk.injEq] at h2
    exact hne h2.2.2.symm

theorem LinkerPar_push_length (lp : List LPRow) (x y z : ℕ) :
    (LinkerPar_push lp x y z).length = lp.length + 1 := by
  simp [LinkerPar_push]

theorem LinkerPar_set_label_length (lp : List LPRow) (i v : ℕ) :
    (LinkerPar_set_label lp i v).length = lp.length := by
  unfold LinkerPar_set_label
  cases lp.get? i <;> simp

theorem LinkerPar_get_label_set_label_self {lp : List LPRow} {i : ℕ} (v : ℕ)
    (h : i < lp.length) :
    LinkerPar_get_label (LinkerPar_set_label lp i v) i = v := by
  unfold LinkerPar_set_label
  cases hgi : lp.get? i with
  | none =>
    have := List.get?_eq_none.mp hgi
    omega
  | some r =>
    unfold LinkerPar_get_label
    rw [List.get?_set_eq_of_lt _ h]

theorem LinkerPar_get_label_set_label_ne (lp : List LPRow) {i j : ℕ} (v : ℕ) (hij : i ≠ j) :
    LinkerPar_get_label (LinkerPar_set_label lp i v) j = LinkerPar_get_label lp j := by
  unfold LinkerPar_set_label LinkerPar_get_label
  cases hgi : lp.get? i with
  | none => rfl
  | some r =>
    rw [List.get?_set_ne _ _ hij]

theorem LinkerPar_get_size_set_label (lp : List LPRow) (i j v a : ℕ) :
    LinkerPar_get_size (LinkerPar_set_label lp i v) j a = LinkerPar_get_size lp j a := by
  unfold LinkerPar_set_label LinkerPar_get_size
  cases hgi : lp.get? i with
  | none => rfl
  | some r =>
    by_cases hij : i = j
    · subst hij
      have hi : i < lp.length := by
        by_contra hcon
        rw [List.get?_eq_none.mpr (le_of_not_lt hcon)] at hgi
        exact Option.noConfusion hgi
      rw [List.get?_set_eq_of_lt _ hi, hgi]
    · rw [List.get?_set_ne _ _ hij]

theorem foldl_establish {α β : Type _} (P : α → Prop) (Q : α → β → Prop)
    (f : α → β → α) (l : List β) (a : α) (h0 : P a)
    (hP : ∀ x b, P x → P (f x b))
    (hself : ∀ x b, P x → Q (f x b) b)
    (hkeep : ∀ x b c, P x → Q x c → Q (f x b) c) :
    P (l.foldl f a) ∧ ∀ b ∈ l, Q (l.foldl f a) b := by
  induction l generalizing a with
  | nil => exact ⟨h0, by simp⟩
  | cons b bs ih =>
    obtain ⟨hP2, hQ2⟩ := ih (f a b) (hP a b h0)
    refine ⟨hP2, ?_⟩
    intro c hc
    rcases List.mem_cons.mp hc with rfl | hc2
    · have hQb : Q (f a c) c := hself a c h0
      have := foldl_preserve (P := fun x => P x ∧ Q x c) f bs (f a c)
        ⟨hP a c h0, hQb⟩ (fun x d _ hx => ⟨hP x d hx.1, hkeep x d c hx.1 hx.2⟩)
      exact this.2
    · exact hQ2 c hc2

theorem foldl_remaining {α β : Type _} (R : α → List β → Prop) (f : α → β → α) :
    ∀ (l : List β), l.Nodup → ∀ (a : α), R a l →
      (∀ x b rest, b ∉ rest → R x (b :: rest) → R (f x b) rest) →
      R (l.foldl f a) [] := by
  intro l
  induction l with
  | nil =>
    intro _ a h0 _
    exact h0
  | cons b bs ih =>
    intro hnd a h0 hstep
    have hb : b ∉ bs := (List.nodup_cons.mp hnd).1
    exact ih (List.nodup_cons.mp hnd).2 (f a b) (hstep a b bs hb h0) hstep

theorem LinkerPar_get_label_update (lp : List LPRow) (i j x y z : ℕ) :
    LinkerPar_get_label (LinkerPar_update lp j x y z) i = LinkerPar_get_label lp i := by
  unfold LinkerPar_update LinkerPar_get_label
  cases hgj : lp.get? j with
  | none => rfl
  | some r =>
    by_cases hij : j = i
    · subst hij
      have hj : j < lp.length := by
        by_contra hcon
        rw [List.get?_eq_none.mpr (le_of_not_lt hcon)] at hgj
        exact Option.noConfusion hgj
      rw [List.get?_set_eq_of_lt _ hj, hgj]
    · rw [List.get?_set_ne _ _ hij]

theorem markNbF_labels (cfg : LinkPar) (label : ℤ) :
    ∀ (fuel : ℕ) (st : LState) (p : Pos) (i : ℕ),
      LinkerPar_get_label (markNbF cfg label fuel st p).lpar i =
        LinkerPar_get_label st.lpar i := by
  intro fuel
  induction fuel with
  | zero =>
    intro st p i
    simp only [markNbF]
  | succ fuel ih =>
    intro st p i
    have hunfold : markNbF cfg label (fuel + 1) st p =
        (boxList cfg p).foldl (fun s q => markStep cfg label fuel p s q) st := by
      rw [markNbF]
    rw [hunfold]
    refine (foldl_preserve
      (P := fun (s : LState) =>
        LinkerPar_get_label s.lpar i = LinkerPar_get_label st.lpar i)
      _ _ _ rfl ?_)
    intro s q _ hP
    unfold markStep
    by_cases hskip : skipQ cfg p q
    · rw [if_pos hskip]
      exact hP
    · rw [if_neg hskip]
      by_cases h1 : s.m q = 1
      · rw [if_pos h1]
        rw [ih ⟨msetP s.m q label, LinkerPar_update s.lpar label.toNat q.1 q.2.1 q.2.2⟩ q i]
        show LinkerPar_get_label (LinkerPar_update s.lpar label.toNat q.1 q.2.1 q.2.2) i = _
        rw [LinkerPar_get_label_update]
        exact hP
      · rw [if_neg h1]
        exact hP

theorem LinkerPar_get_label_push (lp : List LPRow) (x y z i : ℕ)
    (h : LinkerPar_get_label lp i = 0) :
    LinkerPar_get_label (LinkerPar_push lp x y z) i = 0 := by
  unfold LinkerPar_get_label at h ⊢
  unfold LinkerPar_push
  by_cases hil : i < lp.length
  · rw [List.get?_append hil]
    exact h
  · by_cases hi : i = lp.length
    · subst hi
      rw [List.get?_append_right (le_refl _)]
      simp
    · have hge : lp.length + 1 ≤ i := by
        rcases Nat.lt_or_ge i lp.length with hcon | hge2
        · exact absurd hcon hil
        · omega
      rw [List.get?_eq_none.mpr (by simp only [List.length_append, List.length_cons, List.length_nil]; omega)]

theorem linkPhase1_spec (cfg : LinkPar) (m0 : Pos → ℤ) :
    2 ≤ (linkPhase1 cfg m0).2 ∧
    (((linkPhase1 cfg m0).1.lpar.length : ℤ) = (linkPhase1 cfg m0).2) ∧
    (∀ p, (linkPhase1 cfg m0).1.m p = m0 p ∨
      (m0 p = 1 ∧ 2 ≤ (linkPhase1 cfg m0).1.m p ∧
        (linkPhase1 cfg m0).1.m p < (linkPhase1 cfg m0).2)) ∧
    (∀ i, LinkerPar_get_label (linkPhase1 cfg m0).1.lpar i = 0) ∧
    (∀ p, p ∈ coordsDesc cfg.nx cfg.ny cfg.nz → (linkPhase1 cfg m0).1.m p ≠ 1) := by
  have hmain := foldl_establish
    (P := fun (s : LState × ℤ) => 2 ≤ s.2 ∧ ((s.1.lpar.length : ℤ) = s.2) ∧
      (∀ p, s.1.m p = m0 p ∨ (m0 p = 1 ∧ 2 ≤ s.1.m p ∧ s.1.m p < s.2)) ∧
      (∀ i, LinkerPar_get_label s.1.lpar i = 0))
    (Q := fun (s : LState × ℤ) p => s.1.m p ≠ 1)
    (linkPixelStep cfg) (coordsDesc cfg.nx cfg.ny cfg.nz)
    (⟨⟨m0, LinkerPar_push (LinkerPar_push [] 0 0 0) 0 0 0⟩, 2⟩)
    ⟨by norm_num, by simp [LinkerPar_push], fun p => Or.inl rfl, by
      intro i
      refine LinkerPar_get_label_push _ _ _ _ _ ?_
      refine LinkerPar_get_label_push _ _ _ _ _ ?_
      unfold LinkerPar_get_label
      simp⟩
    ?_ ?_ ?_
  · obtain ⟨⟨hA, hB, hC, hD⟩, hQ⟩ := hmain
    exact ⟨hA, hB, hC, hD, fun p hp => hQ p hp⟩
  · -- P preserved by one pixel visit
    rintro ⟨st, label⟩ b ⟨h2, hlen, hval, hlab0⟩
    dsimp only at h2 hlen hval hlab0
    have hlab : label ≠ 1 := by omega
    unfold linkPixelStep
    by_cases hb : st.m b = 1
    · simp only
      rw [if_pos hb]
      have hevst1 : maskEvolves label st.m
          (⟨msetP st.m b label, LinkerPar_push st.lpar b.1 b.2.1 b.2.2⟩ : LState).m := by
        intro q
        by_cases hqb : q = b
        · subst hqb
          exact Or.inr ⟨hb, by simp [msetP]⟩
        · exact Or.inl (by simp [msetP, if_neg hqb])
      obtain ⟨hev, hlen2⟩ := markNbF_evolves cfg label hlab
        (onesCount cfg (⟨msetP st.m b label,
          LinkerPar_push st.lpar b.1 b.2.1 b.2.2⟩ : LState).m + 1)
        ⟨msetP st.m b label, LinkerPar_push st.lpar b.1 b.2.1 b.2.2⟩ b
      have hevall : maskEvolves label st.m
          (DataCube_mark_neighbours cfg label
            ⟨msetP st.m b label, LinkerPar_push st.lpar b.1 b.2.1 b.2.2⟩ b).m :=
        maskEvolves_trans label hlab hevst1 hev
      dsimp only
      refine ⟨by omega, ?_, ?_, ?_⟩
      · show (((DataCube_mark_neighbours cfg label
            ⟨msetP st.m b label, LinkerPar_push st.lpar b.1 b.2.1 b.2.2⟩ b).lpar.length : ℤ))
          = label + 1
        have : (DataCube_mark_neighbours cfg label
            ⟨msetP st.m b label, LinkerPar_push st.lpar b.1 b.2.1 b.2.2⟩ b).lpar.length
            = st.lpar.length + 1 := by
          unfold DataCube_mark_neighbours
          rw [hlen2]
          show (LinkerPar_push st.lpar b.1 b.2.1 b.2.2).length = _
          rw [LinkerPar_push_length]
        rw [this]
        push_cast
        omega
      · intro p
        rcases hevall p with h | ⟨h1, hlab2⟩
        · rw [h]
          rcases hval p with h3 | ⟨h3a, h3b, h3c⟩
          · exact Or.inl h3
          · exact Or.inr ⟨h3a, h3b, by omega⟩
        · have hm0p : m0 p = 1 := by
            rcases hval p with h3 | ⟨h3a, -⟩
            · rw [h3] at h1
              exact h1
            · exact h3a
          exact Or.inr ⟨hm0p, by omega, by omega⟩
      · intro i
        have hlabpres := markNbF_labels cfg label
          (onesCount cfg (⟨msetP st.m b label,
            LinkerPar_push st.lpar b.1 b.2.1 b.2.2⟩ : LState).m + 1)
          ⟨msetP st.m b label, LinkerPar_push st.lpar b.1 b.2.1 b.2.2⟩ b i
        show LinkerPar_get_label (DataCube_mark_neighbours cfg label
          ⟨msetP st.m b label, LinkerPar_push st.lpar b.1 b.2.1 b.2.2⟩ b).lpar i = 0
        rw [show (DataCube_mark_neighbours cfg label
          ⟨msetP st.m b label, LinkerPar_push st.lpar b.1 b.2.1 b.2.2⟩ b) =
          markNbF cfg label (onesCount cfg (⟨msetP st.m b label,
            LinkerPar_push st.lpar b.1 b.2.1 b.2.2⟩ : LState).m + 1)
          ⟨msetP st.m b label, LinkerPar_push st.lpar b.1 b.2.1 b.2.2⟩ b from rfl]
        rw [markNbF_labels]
        exact LinkerPar_get_label_push _ _ _ _ _ (hlab0 i)
    · simp only
      rw [if_neg hb]
      exact ⟨h2, hlen, hval, hlab0⟩
  · -- after visiting b, its value is not 1
    rintro ⟨st, label⟩ b ⟨h2, hlen, hval, -⟩
    dsimp only at h2 hlen hval
    have hlab : label ≠ 1 := by omega
    unfold linkPixelStep
    by_cases hb : st.m b = 1
    · simp only
      rw [if_pos hb]
      have hst1b : (⟨msetP st.m b label,
          LinkerPar_push st.lpar b.1 b.2.1 b.2.2⟩ : LState).m b = label := by
        simp [msetP]
      obtain ⟨hev, -⟩ := markNbF_evolves cfg label hlab
        (onesCount cfg (⟨msetP st.m b label,
          LinkerPar_push st.lpar b.1 b.2.1 b.2.2⟩ : LState).m + 1)
        ⟨msetP st.m b label, LinkerPar_push st.lpar b.1 b.2.1 b.2.2⟩ b
      rcases hev b with h | ⟨h1, hres⟩
      · show (DataCube_mark_neighbours cfg label _ b).m b ≠ 1
        unfold DataCube_mark_neighbours
        rw [h, hst1b]
        exact hlab
      · rw [hst1b] at h1
        exact absurd h1 hlab
    · simp only
      rw [if_neg hb]
      exact hb
  · -- visits elsewhere keep a non-1 pixel non-1
    rintro ⟨st, label⟩ b c ⟨h2, hlen, hval, -⟩ hc
    dsimp only at h2 hlen hval
    have hlab : label ≠ 1 := by omega
    unfold linkPixelStep
    by_cases hb : st.m b = 1
    · simp only
      rw [if_pos hb]
      have hevst1 : maskEvolves label st.m
          (⟨msetP st.m b label, LinkerPar_push st.lpar b.1 b.2.1 b.2.2⟩ : LState).m := by
        intro q
        by_cases hqb : q = b
        · subst hqb
          exact Or.inr ⟨hb, by simp [msetP]⟩
        · exact Or.inl (by simp [msetP, if_neg hqb])
      obtain ⟨hev, -⟩ := markNbF_evolves cfg label hlab
        (onesCount cfg (⟨msetP st.m b label,
          LinkerPar_push st.lpar b.1 b.2.1 b.2.2⟩ : LState).m + 1)
        ⟨msetP st.m b label, LinkerPar_push st.lpar b.1 b.2.1 b.2.2⟩ b
      rcases (maskEvolves_trans label hlab hevst1 hev) c with h | ⟨h1, hres⟩
      · show (DataCube_mark_neighbours cfg label _ b).m c ≠ 1
        unfold DataCube_mark_neighbours
        rw [h]
        exact hc
      · show (DataCube_mark_neighbours cfg label _ b).m c ≠ 1
        unfold DataCube_mark_neighbours
        rw [hres]
        exact hlab
    · simp only
      rw [if_neg hb]
      exact hc

theorem relabelStep_inv (cfg : LinkPar) (mins : ℕ × ℕ × ℕ) (ph1m : Pos → ℤ) (L : ℕ)
    (hph1 : ∀ p, p ∈ coordsDesc cfg.nx cfg.ny cfg.nz →
      ph1m p = 0 ∨ (2 ≤ ph1m p ∧ ph1m p < (L : ℤ)))
    (s : LState × ℕ) (b : Pos) (rest : List Pos)
    (hbr : b ∉ rest)
    (hsub : ∀ p ∈ b :: rest, p ∈ coordsDesc cfg.nx cfg.ny cfg.nz)
    (h1 : 1 ≤ s.2)
    (h2 : s.1.lpar.length = L)
    (h3 : ∀ i, LinkerPar_get_label s.1.lpar i < s.2)
    (h4 : ∀ k, 1 ≤ k → k < s.2 → ∃ i, i < L ∧ LinkerPar_get_label s.1.lpar i = k ∧
      mins.1 ≤ LinkerPar_get_size s.1.lpar i 0 ∧
      mins.2.1 ≤ LinkerPar_get_size s.1.lpar i 1 ∧
      mins.2.2 ≤ LinkerPar_get_size s.1.lpar i 2)
    (h5 : ∀ k, 1 ≤ k → k < s.2 → ∃ p, inBounds cfg.nx cfg.ny cfg.nz p ∧
      ¬ p ∈ b :: rest ∧ s.1.m p = (k : ℤ))
    (h6 : ∀ p ∈ b :: rest, s.1.m p = ph1m p)
    (h7 : ∀ p, p ∈ coordsDesc cfg.nx cfg.ny cfg.nz → ¬ p ∈ b :: rest →
      (s.1.m p = 0 ∨ (1 ≤ s.1.m p ∧ s.1.m p < (s.2 : ℤ))))
    (h8 : ∀ p, ph1m p = 0 → s.1.m p = 0) :
    (∀ p ∈ rest, p ∈ coordsDesc cfg.nx cfg.ny cfg.nz) ∧
    1 ≤ (relabelStep mins s b).2 ∧
    (relabelStep mins s b).1.lpar.length = L ∧
    (∀ i, LinkerPar_get_label (relabelStep mins s b).1.lpar i < (relabelStep mins s b).2) ∧
    (∀ k, 1 ≤ k → k < (relabelStep mins s b).2 → ∃ i, i < L ∧
      LinkerPar_get_label (relabelStep mins s b).1.lpar i = k ∧
      mins.1 ≤ LinkerPar_get_size (relabelStep mins s b).1.lpar i 0 ∧
      mins.2.1 ≤ LinkerPar_get_size (relabelStep mins s b).1.lpar i 1 ∧
      mins.2.2 ≤ LinkerPar_get_size (relabelStep mins s b).1.lpar i 2) ∧
    (∀ k, 1 ≤ k → k < (relabelStep mins s b).2 → ∃ p, inBounds cfg.nx cfg.ny cfg.nz p ∧
      ¬ p ∈ rest ∧ (relabelStep mins s b).1.m p = (k : ℤ)) ∧
    (∀ p ∈ rest, (relabelStep mins s b).1.m p = ph1m p) ∧
    (∀ p, p ∈ coordsDesc cfg.nx cfg.ny cfg.nz → ¬ p ∈ rest →
      ((relabelStep mins s b).1.m p = 0 ∨
        (1 ≤ (relabelStep mins s b).1.m p ∧
          (relabelStep mins s b).1.m p < ((relabelStep mins s b).2 : ℤ)))) ∧
    (∀ p, ph1m p = 0 → (relabelStep mins s b).1.m p = 0) := by
  have hbc : b ∈ coordsDesc cfg.nx cfg.ny cfg.nz := hsub b (List.mem_cons_self b rest)
  have hsub2 : ∀ p ∈ rest, p ∈ coordsDesc cfg.nx cfg.ny cfg.nz :=
    fun p hp => hsub p (List.mem_cons_of_mem b hp)
  have hmb : s.1.m b = ph1m b := h6 b (List.mem_cons_self b rest)
  by_cases hv : 0 < s.1.m b
  · -- the pixel carries a provisional label
    have hbv : ph1m b ≠ 0 := by
      intro h0
      rw [hmb, h0] at hv
      exact lt_irrefl 0 hv
    have hb2L : 2 ≤ s.1.m b ∧ s.1.m b < (L : ℤ) := by
      rcases hph1 b hbc with h0 | hok
      · exact absurd h0 hbv
      · rw [hmb]
        exact hok
    have htn : (s.1.m b).toNat < L := by omega
    have htnl : (s.1.m b).toNat < s.1.lpar.length := by omega
    by_cases hfail : LinkerPar_get_size s.1.lpar (s.1.m b).toNat 0 < mins.1 ∨
        LinkerPar_get_size s.1.lpar (s.1.m b).toNat 1 < mins.2.1 ∨
        LinkerPar_get_size s.1.lpar (s.1.m b).toNat 2 < mins.2.2
    · -- too small: the pixel is zeroed
      have hred : relabelStep mins s b = (⟨msetP s.1.m b 0, s.1.lpar⟩, s.2) := by
        unfold relabelStep
        rw [if_pos hv, if_pos hfail]
      rw [hred]
      refine ⟨hsub2, h1, h2, h3, ?_, ?_, ?_, ?_, ?_⟩
      · intro k hk1 hk2
        exact h4 k hk1 hk2
      · intro k hk1 hk2
        obtain ⟨p, hpin, hpr, hpv⟩ := h5 k hk1 hk2
        have hpb : p ≠ b := fun hpb => hpr (hpb ▸ List.mem_cons_self b rest)
        refine ⟨p, hpin, fun hc => hpr (List.mem_cons_of_mem b hc), ?_⟩
        show msetP s.1.m b 0 p = (k : ℤ)
        rw [msetP, if_neg hpb]
        exact hpv
      · intro p hp
        have hpb : p ≠ b := fun hpb => hbr (hpb ▸ hp)
        show msetP s.1.m b 0 p = ph1m p
        rw [msetP, if_neg hpb]
        exact h6 p (List.mem_cons_of_mem b hp)
      · intro p hpc hpr
        by_cases hpb : p = b
        · subst hpb
          left
          show msetP s.1.m p 0 p = 0
          rw [msetP, if_pos rfl]
        · have hnp : ¬ p ∈ b :: rest := by
            intro hc
            rcases List.mem_cons.mp hc with hc1 | hc2
            · exact hpb hc1
            · exact hpr hc2
          have := h7 p hpc hnp
          show msetP s.1.m b 0 p = 0 ∨ (1 ≤ msetP s.1.m b 0 p ∧ msetP s.1.m b 0 p < (s.2 : ℤ))
          rw [msetP, if_neg hpb]
          exact this
      · intro p hp0
        by_cases hpb : p = b
        · subst hpb
          show msetP s.1.m p 0 p = 0
          rw [msetP, if_pos rfl]
        · show msetP s.1.m b 0 p = 0
          rw [msetP, if_neg hpb]
          exact h8 p hp0
    · -- large enough: relabel the pixel with the final label of its row
      by_cases hz : LinkerPar_get_label s.1.lpar (s.1.m b).toNat = 0
      · -- the row receives the next consecutive final label
        have hred : relabelStep mins s b =
            (⟨msetP s.1.m b
              ((LinkerPar_get_label (LinkerPar_set_label s.1.lpar (s.1.m b).toNat s.2)
                (s.1.m b).toNat : ℕ) : ℤ),
              LinkerPar_set_label s.1.lpar (s.1.m b).toNat s.2⟩, s.2 + 1) := by
          unfold relabelStep
          rw [if_pos hv, if_neg hfail, if_pos hz, if_pos hz]
        have hlabself : LinkerPar_get_label (LinkerPar_set_label s.1.lpar (s.1.m b).toNat s.2)
            (s.1.m b).toNat = s.2 :=
          LinkerPar_get_label_set_label_self s.2 htnl
        rw [hred, hlabself]
        push_neg at hfail
        refine ⟨hsub2, by omega, ?_, ?_, ?_, ?_, ?_, ?_, ?_⟩
        · show (LinkerPar_set_label s.1.lpar (s.1.m b).toNat s.2).length = L
          rw [LinkerPar_set_label_length]
          exact h2
        · intro i
          by_cases hi : i = (s.1.m b).toNat
          · show LinkerPar_get_label (LinkerPar_set_label s.1.lpar (s.1.m b).toNat s.2) i < s.2 + 1
            rw [hi, hlabself]
            omega
          · show LinkerPar_get_label (LinkerPar_set_label s.1.lpar (s.1.m b).toNat s.2) i < s.2 + 1
            rw [LinkerPar_get_label_set_label_ne s.1.lpar s.2 (Ne.symm hi)]
            have := h3 i
            omega
        · intro k hk1 hk2
          by_cases hk : k = s.2
          · subst hk
            refine ⟨(s.1.m b).toNat, htn, hlabself, ?_, ?_, ?_⟩
            · rw [LinkerPar_get_size_set_label]
              omega
            · rw [LinkerPar_get_size_set_label]
              omega
            · rw [LinkerPar_get_size_set_label]
              omega
          · have hk2b : k < s.2 := by omega
            obtain ⟨i, hiL, hilab, hs0, hs1, hs2⟩ := h4 k hk1 hk2b
            have hine : i ≠ (s.1.m b).toNat := by
              intro hc
              rw [hc, hz] at hilab
              omega
            refine ⟨i, hiL, ?_, ?_, ?_, ?_⟩
            · rw [LinkerPar_get_label_set_label_ne s.1.lpar s.2 (Ne.symm hine)]
              exact hilab
            · rw [LinkerPar_get_size_set_label]
              exact hs0
            · rw [LinkerPar_get_size_set_label]
              exact hs1
            · rw [LinkerPar_get_size_set_label]
              exact hs2
        · intro k hk1 hk2
          by_cases hk : k = s.2
          · subst hk
            refine ⟨b, (mem_coordsDesc _ _ _ _).mp hbc, hbr, ?_⟩
            show msetP s.1.m b ((s.2 : ℕ) : ℤ) b = ((s.2 : ℕ) : ℤ)
            rw [msetP, if_pos rfl]
          · have hk2b : k < s.2 := by omega
            obtain ⟨p, hpin, hpr, hpv⟩ := h5 k hk1 hk2b
            have hpb : p ≠ b := fun hc => hpr (hc ▸ List.mem_cons_self b rest)
            refine ⟨p, hpin, fun hc => hpr (List.mem_cons_of_mem b hc), ?_⟩
            show msetP s.1.m b ((s.2 : ℕ) : ℤ) p = (k : ℤ)
            rw [msetP, if_neg hpb]
            exact hpv
        · intro p hp
          have hpb : p ≠ b := fun hc => hbr (hc ▸ hp)
          show msetP s.1.m b ((s.2 : ℕ) : ℤ) p = ph1m p
          rw [msetP, if_neg hpb]
          exact h6 p (List.mem_cons_of_mem b hp)
        · intro p hpc hpr
          by_cases hpb : p = b
          · subst hpb
            right
            constructor
            · show (1 : ℤ) ≤ msetP s.1.m p ((s.2 : ℕ) : ℤ) p
              rw [msetP, if_pos rfl]
              exact_mod_cast h1
            · show msetP s.1.m p ((s.2 : ℕ) : ℤ) p < ((s.2 + 1 : ℕ) : ℤ)
              rw [msetP, if_pos rfl]
              push_cast
              omega
          · have hnp : ¬ p ∈ b :: rest := by
              intro hc
              rcases List.mem_cons.mp hc with hc1 | hc2
              · exact hpb hc1
              · exact hpr hc2
            show msetP s.1.m b ((s.2 : ℕ) : ℤ) p = 0 ∨
              (1 ≤ msetP s.1.m b ((s.2 : ℕ) : ℤ) p ∧
                msetP s.1.m b ((s.2 : ℕ) : ℤ) p < ((s.2 + 1 : ℕ) : ℤ))
            rw [msetP, if_neg hpb]
            rcases h7 p hpc hnp with h | ⟨ha, hbnd⟩
            · exact Or.inl h
            · refine Or.inr ⟨ha, ?_⟩
              push_cast
              omega
        · intro p hp0
          have hpb : p ≠ b := by
            intro hc
            subst hc
            exact hbv hp0
          show msetP s.1.m b ((s.2 : ℕ) : ℤ) p = 0
          rw [msetP, if_neg hpb]
          exact h8 p hp0
      · -- the row already carries a final label
        have hred : relabelStep mins s b =
            (⟨msetP s.1.m b
              ((LinkerPar_get_label s.1.lpar (s.1.m b).toNat : ℕ) : ℤ), s.1.lpar⟩, s.2) := by
          unfold relabelStep
          rw [if_pos hv, if_neg hfail, if_neg hz, if_neg hz]
        rw [hred]
        have hk0lt : LinkerPar_get_label s.1.lpar (s.1.m b).toNat < s.2 := h3 _
        have hk01 : 1 ≤ LinkerPar_get_label s.1.lpar (s.1.m b).toNat := by omega
        refine ⟨hsub2, h1, h2, h3, ?_, ?_, ?_, ?_, ?_⟩
        · intro k hk1 hk2
          exact h4 k hk1 hk2
        · intro k hk1 hk2
          obtain ⟨p, hpin, hpr, hpv⟩ := h5 k hk1 hk2
          have hpb : p ≠ b := fun hc => hpr (hc ▸ List.mem_cons_self b rest)
          refine ⟨p, hpin, fun hc => hpr (List.mem_cons_of_mem b hc), ?_⟩
          show msetP s.1.m b _ p = (k : ℤ)
          rw [msetP, if_neg hpb]
          exact hpv
        · intro p hp
          have hpb : p ≠ b := fun hc => hbr (hc ▸ hp)
          show msetP s.1.m b _ p = ph1m p
          rw [msetP, if_neg hpb]
          exact h6 p (List.mem_cons_of_mem b hp)
        · intro p hpc hpr
          by_cases hpb : p = b
          · subst hpb
            right
            constructor
            · show (1 : ℤ) ≤ msetP s.1.m p _ p
              rw [msetP, if_pos rfl]
              exact_mod_cast hk01
            · show msetP s.1.m p _ p < (s.2 : ℤ)
              rw [msetP, if_pos rfl]
              exact_mod_cast hk0lt
          · have hnp : ¬ p ∈ b :: rest := by
              intro hc
              rcases List.mem_cons.mp hc with hc1 | hc2
              · exact hpb hc1
              · exact hpr hc2
            show msetP s.1.m b _ p = 0 ∨ (1 ≤ msetP s.1.m b _ p ∧ msetP s.1.m b _ p < (s.2 : ℤ))
            rw [msetP, if_neg hpb]
            exact h7 p hpc hnp
        · intro p hp0
          have hpb : p ≠ b := by
            intro hc
            subst hc
            exact hbv hp0
          show msetP s.1.m _ _ p = 0
          rw [msetP, if_neg hpb]
          exact h8 p hp0
  · -- background pixel: nothing happens
    have hred : relabelStep mins s b = s := by
      unfold relabelStep
      rw [if_neg hv]
    rw [hred]
    refine ⟨hsub2, h1, h2, h3, ?_, ?_, ?_, ?_, h8⟩
    · intro k hk1 hk2
      exact h4 k hk1 hk2
    · intro k hk1 hk2
      obtain ⟨p, hpin, hpr, hpv⟩ := h5 k hk1 hk2
      exact ⟨p, hpin, fun hc => hpr (List.mem_cons_of_mem b hc), hpv⟩
    · intro p hp
      exact h6 p (List.mem_cons_of_mem b hp)
    · intro p hpc hpr
      by_cases hpb : p = b
      · subst hpb
        left
        rcases hph1 p hpc with h0 | ⟨hge, -⟩
        · rw [hmb, h0]
        · rw [hmb] at hv
          omega
      · have hnp : ¬ p ∈ b :: rest := by
          intro hc
          rcases List.mem_cons.mp hc with hc1 | hc2
          · exact hpb hc1
          · exact hpr hc2
        exact h7 p hpc hnp

theorem LinkerPar_reduce_mem (lp : List LPRow) (i k : ℕ) (hk : 1 ≤ k)
    (hlab : LinkerPar_get_label lp i = k) :
    ∃ r, r ∈ LinkerPar_reduce lp ∧ r.label = k ∧
      LinkerPar_get_size lp i 0 = r.x_max - r.x_min + 1 ∧
      LinkerPar_get_size lp i 1 = r.y_max - r.y_min + 1 ∧
      LinkerPar_get_size lp i 2 = r.z_max - r.z_min + 1 := by
  unfold LinkerPar_get_label at hlab
  cases hgi : lp.get? i with
  | none =>
    rw [hgi] at hlab
    dsimp only at hlab
    omega
  | some r =>
    rw [hgi] at hlab
    dsimp only at hlab
    refine ⟨r, ?_, hlab, ?_, ?_, ?_⟩
    · unfold LinkerPar_reduce
      rw [List.mem_mergeSort]
      refine List.mem_filter.mpr ⟨List.get?_mem hgi, ?_⟩
      simp only [decide_eq_true_eq]
      omega
    · unfold LinkerPar_get_size
      rw [hgi]
      simp
    · unfold LinkerPar_get_size
      rw [hgi]
      simp
    · unfold LinkerPar_get_size
      rw [hgi]
      simp

/-- **C3.** After `DataCube_run_linker` completes on a mask whose
in-bounds values are 0 or 1, with minimum extents `mins`, the final mask
values form `{0} ∪ {1..K}` with no gaps (every in-bounds pixel is 0 or
carries a label between 1 and `K`), every label in `1..K` occurs at at
least one pixel, every pixel that was 0 before linking is still 0, and
for every label in `1..K` the reduced table holds a row with that label
whose bounding-box extents are at least `mins` along x, y and z. -/
theorem run_linker_labels_contiguous (cfg : LinkPar) (mins : ℕ × ℕ × ℕ) (m0 : Pos → ℤ)
    (hm0 : ∀ p, inBounds cfg.nx cfg.ny cfg.nz p → m0 p = 0 ∨ m0 p = 1) :
    (∀ p, inBounds cfg.nx cfg.ny cfg.nz p →
      (DataCube_run_linker cfg mins m0).1 p = 0 ∨
      (1 ≤ (DataCube_run_linker cfg mins m0).1 p ∧
        (DataCube_run_linker cfg mins m0).1 p ≤ ((DataCube_run_linker cfg mins m0).2.2 : ℤ))) ∧
    (∀ k : ℕ, 1 ≤ k → k ≤ (DataCube_run_linker cfg mins m0).2.2 →
      ∃ p, inBounds cfg.nx cfg.ny cfg.nz p ∧
        (DataCube_run_linker cfg mins m0).1 p = (k : ℤ)) ∧
    (∀ p, m0 p = 0 → (DataCube_run_linker cfg mins m0).1 p = 0) ∧
    (∀ k : ℕ, 1 ≤ k → k ≤ (DataCube_run_linker cfg mins m0).2.2 →
      ∃ r, r ∈ (DataCube_run_linker cfg mins m0).2.1 ∧ r.label = k ∧
        mins.1 ≤ r.x_max - r.x_min + 1 ∧
        mins.2.1 ≤ r.y_max - r.y_min + 1 ∧
        mins.2.2 ≤ r.z_max - r.z_min + 1) := by
  obtain ⟨hL2, hlen, hval, hlab0, hno1⟩ := linkPhase1_spec cfg m0
  have hph1 : ∀ p, p ∈ coordsDesc cfg.nx cfg.ny cfg.nz →
      (linkPhase1 cfg m0).1.m p = 0 ∨
      (2 ≤ (linkPhase1 cfg m0).1.m p ∧
        (linkPhase1 cfg m0).1.m p < (((linkPhase1 cfg m0).1.lpar.length : ℕ) : ℤ)) := by
    intro p hp
    rcases hval p with h | ⟨hm1, hge, hlt⟩
    · rcases hm0 p ((mem_coordsDesc _ _ _ _).mp hp) with h0 | h1
      · left
        rw [h, h0]
      · exact absurd (h.trans h1) (hno1 p hp)
    · right
      refine ⟨hge, ?_⟩
      rw [hlen]
      exact hlt
  have hm0z : ∀ p, m0 p = 0 → (linkPhase1 cfg m0).1.m p = 0 := by
    intro p h0
    rcases hval p with h | ⟨hm1, -⟩
    · rw [h, h0]
    · rw [h0] at hm1
      exact absurd hm1 (by norm_num)
  have hfin := foldl_remaining
    (fun (s : LState × ℕ) (rest : List Pos) =>
      (∀ p ∈ rest, p ∈ coordsDesc cfg.nx cfg.ny cfg.nz) ∧
      1 ≤ s.2 ∧
      s.1.lpar.length = (linkPhase1 cfg m0).1.lpar.length ∧
      (∀ i, LinkerPar_get_label s.1.lpar i < s.2) ∧
      (∀ k, 1 ≤ k → k < s.2 → ∃ i, i < (linkPhase1 cfg m0).1.lpar.length ∧
        LinkerPar_get_label s.1.lpar i = k ∧
        mins.1 ≤ LinkerPar_get_size s.1.lpar i 0 ∧
        mins.2.1 ≤ LinkerPar_get_size s.1.lpar i 1 ∧
        mins.2.2 ≤ LinkerPar_get_size s.1.lpar i 2) ∧
      (∀ k, 1 ≤ k → k < s.2 → ∃ p, inBounds cfg.nx cfg.ny cfg.nz p ∧
        ¬ p ∈ rest ∧ s.1.m p = (k : ℤ)) ∧
      (∀ p ∈ rest, s.1.m p = (linkPhase1 cfg m0).1.m p) ∧
      (∀ p, p ∈ coordsDesc cfg.nx cfg.ny cfg.nz → ¬ p ∈ rest →
        (s.1.m p = 0 ∨ (1 ≤ s.1.m p ∧ s.1.m p < (s.2 : ℤ)))) ∧
      (∀ p, (linkPhase1 cfg m0).1.m p = 0 → s.1.m p = 0))
    (relabelStep mins) (coordsDesc cfg.nx cfg.ny cfg.nz)
    (coordsDesc_nodup cfg.nx cfg.ny cfg.nz)
    ((linkPhase1 cfg m0).1, 1)
    ⟨fun p hp => hp, le_refl 1, rfl,
      fun i => by rw [hlab0 i]; norm_num,
      fun k hk1 hk2 => absurd hk2 (by omega),
      fun k hk1 hk2 => absurd hk2 (by omega),
      fun p hp => rfl,
      fun p hpc hpr => absurd hpc hpr,
      fun p h => h⟩
    (by
      intro x b rest hbr hR
      obtain ⟨hA0, hA1, hA2, hA3, hA4, hA5, hA6, hA7, hA8⟩ := hR
      exact relabelStep_inv cfg mins (linkPhase1 cfg m0).1.m
        (linkPhase1 cfg m0).1.lpar.length hph1 x b rest hbr hA0 hA1 hA2 hA3 hA4 hA5 hA6 hA7 hA8)
  obtain ⟨-, hB1, hB2, -, hB4, hB5, -, hB7, hB8⟩ := hfin
  have hd1 : (DataCube_run_linker cfg mins m0).1 =
      ((coordsDesc cfg.nx cfg.ny cfg.nz).foldl (relabelStep mins)
        ((linkPhase1 cfg m0).1, 1)).1.m := rfl
  have hd2 : (DataCube_run_linker cfg mins m0).2.1 =
      LinkerPar_reduce ((coordsDesc cfg.nx cfg.ny cfg.nz).foldl (relabelStep mins)
        ((linkPhase1 cfg m0).1, 1)).1.lpar := rfl
  have hd3 : (DataCube_run_linker cfg mins m0).2.2 =
      ((coordsDesc cfg.nx cfg.ny cfg.nz).foldl (relabelStep mins)
        ((linkPhase1 cfg m0).1, 1)).2 - 1 := rfl
  refine ⟨?_, ?_, ?_, ?_⟩
  · intro p hpin
    rw [hd1, hd3]
    rcases hB7 p ((mem_coordsDesc _ _ _ _).mpr hpin) (List.not_mem_nil p) with h | ⟨ha, hb⟩
    · exact Or.inl h
    · refine Or.inr ⟨ha, ?_⟩
      omega
  · intro k hk1 hk2
    rw [hd3] at hk2
    have hklt : k < ((coordsDesc cfg.nx cfg.ny cfg.nz).foldl (relabelStep mins)
        ((linkPhase1 cfg m0).1, 1)).2 := by omega
    obtain ⟨p, hpin, -, hpv⟩ := hB5 k hk1 hklt
    refine ⟨p, hpin, ?_⟩
    rw [hd1]
    exact hpv
  · intro p h0
    rw [hd1]
    exact hB8 p (hm0z p h0)
  · intro k hk1 hk2
    rw [hd3] at hk2
    have hklt : k < ((coordsDesc cfg.nx cfg.ny cfg.nz).foldl (relabelStep mins)
        ((linkPhase1 cfg m0).1, 1)).2 := by omega
    obtain ⟨i, hiL, hilab, hs0, hs1, hs2⟩ := hB4 k hk1 hklt
    obtain ⟨r, hrmem, hrlab, he0, he1, he2⟩ := LinkerPar_reduce_mem
      ((coordsDesc cfg.nx cfg.ny cfg.nz).foldl (relabelStep mins)
        ((linkPhase1 cfg m0).1, 1)).1.lpar i k hk1 hilab
    rw [hd2]
    refine ⟨r, hrmem, hrlab, ?_, ?_, ?_⟩
    · rw [← he0]
      exact hs0
    · rw [← he1]
      exact hs1
    · rw [← he2]
      exact hs2

/-- Witness for C3: the 2×1×1 all-one mask linked with radii `(1,0,0)`
and minimum sizes `(1,1,1)`; pixel `(0,0,0)` is background or carries a
label in `1..K`. -/
theorem run_linker_labels_contiguous_witness :
    (DataCube_run_linker cfgW minsW m0W).1 (0, 0, 0) = 0 ∨
    (1 ≤ (DataCube_run_linker cfgW minsW m0W).1 (0, 0, 0) ∧
      (DataCube_run_linker cfgW minsW m0W).1 (0, 0, 0) ≤
        ((DataCube_run_linker cfgW minsW m0W).2.2 : ℤ)) :=
  (run_linker_labels_contiguous cfgW minsW m0W
    (fun p hp => Or.inr rfl)).1 (0, 0, 0) (by with_unfolding_all decide)

set_option maxRecDepth 100000 in
/-- **C8.**  On the 2×1×1 all-one mask with radii `(1,0,0)` and minimum
sizes `(1,1,1)`, the linker model rewrites the mask in place (both
pixels end at the final label 1) and the reduced table holds exactly
one row per surviving source: the single row with label 1, 2 pixels and
bounding box x `0..1`, y `0..0`, z `0..0`.  This is the value the
caller in sofia.c binds as `LinkerPar *linker_par`; the C function in
DataCube.c, however, is declared `void` and calls
`LinkerPar_delete(lpar)` before returning, so no table reaches the
caller. -/
theorem run_linker_table_for_caller :
    (DataCube_run_linker cfgW minsW m0W).1 (0, 0, 0) = 1 ∧
    (DataCube_run_linker cfgW minsW m0W).1 (1, 0, 0) = 1 ∧
    (DataCube_run_linker cfgW minsW m0W).2.1 = [⟨1, 2, 0, 1, 0, 0, 0, 0⟩] ∧
    (DataCube_run_linker cfgW minsW m0W).2.2 = 1 := by
  with_unfolding_all decide

theorem findIdx?_first {α : Type _} (p : α → Bool) (d : α) :
    ∀ (l : List α) (s i : ℕ), List.findIdx? p l s = some i →
      s ≤ i ∧ i - s < l.length ∧ p (l.getD (i - s) d) = true ∧
      ∀ j, j < i - s → p (l.getD j d) = false := by
  intro l
  induction l with
  | nil =>
    intro s i h
    simp [List.findIdx?] at h
  | cons a as ih =>
    intro s i h
    rw [List.findIdx?_cons] at h
    by_cases hpa : p a = true
    · rw [if_pos hpa] at h
      obtain rfl := Option.some.inj h
      refine ⟨le_refl _, by simp, ?_, ?_⟩
      · simpa using hpa
      · intro j hj
        omega
    · rw [if_neg hpa] at h
      obtain ⟨hs, hlt, hp, hbefore⟩ := ih (s + 1) i h
      have hds : i - s = (i - (s + 1)) + 1 := by omega
      refine ⟨by omega, by simp; omega, ?_, ?_⟩
      · rw [hds]
        simpa using hp
      · intro j hj
        cases j with
        | zero => simpa using (Bool.not_eq_true _).mp hpa
        | succ j2 =>
          have : j2 < i - (s + 1) := by omega
          simpa using hbefore j2 this

theorem findIdx?_none {α : Type _} (p : α → Bool) :
    ∀ (l : List α) (s : ℕ), (∀ x ∈ l, p x = false) → List.findIdx? p l s = none := by
  intro l
  induction l with
  | nil =>
    intro s _
    simp [List.findIdx?]
  | cons a as ih =>
    intro s hall
    rw [List.findIdx?_cons]
    rw [if_neg (by simp [hall a (List.mem_cons_self a as)])]
    exact ih (s + 1) (fun x hx => hall x (List.mem_cons_of_mem a hx))

theorem find?_first {α : Type _} (p : α → Bool) (d : α) :
    ∀ (l : List α) (x : α), List.find? p l = some x →
      ∃ i, i < l.length ∧ p x = true ∧ x = l.getD i d ∧
        ∀ j, j < i → p (l.getD j d) = false := by
  intro l
  induction l with
  | nil =>
    intro x h
    simp at h
  | cons a as ih =>
    intro x h
    rw [List.find?_cons] at h
    by_cases hpa : p a = true
    · rw [hpa] at h
      obtain rfl := Option.some.inj h
      exact ⟨0, by simp, hpa, by simp, fun j hj => absurd hj (Nat.not_lt_zero j)⟩
    · rw [(Bool.not_eq_true _).mp hpa] at h
      obtain ⟨i, hlt, hp, hx, hbefore⟩ := ih x h
      refine ⟨i + 1, by simp; omega, hp, by simpa using hx, ?_⟩
      intro j hj
      cases j with
      | zero => simpa using (Bool.not_eq_true _).mp hpa
      | succ j2 => simpa using hbefore j2 (by omega)

set_option maxRecDepth 40000 in
/-- **C9 counterexample.**  Lookup is not governed by byte 8: with the
3-byte key KEY, `DataCube_chkhd` skips the record `KEYS    = 1` (its
byte 8 is the `=` the claim asks for, but the code inspects the byte at
offset `strlen(key)` = 3, which is S) and returns line 2, while the
byte-8 rule of the claim selects line 1; and `DataCube_gethd_raw`
matches the record `KEYLONGXY= 1` purely by prefix (reading value 1)
although its byte 8 is Y, which the claim says must be ignored — the
claim's rule would read the later record `KEY     = 2`. -/
theorem header_lookup_byte8_claim_false :
    specLookup hdrC9a keyKEY = 1 ∧
    DataCube_chkhd hdrC9a keyKEY = some 2 ∧
    specLookup hdrC9b keyKEY = 2 ∧
    DataCube_gethd_raw hdrC9b keyKEY =
      some (((lineOf "KEYLONGXY= 1").drop 10).take 70) ∧
    DataCube_gethd_int hdrC9b keyKEY = 1 := by
  with_unfolding_all decide

/-- **C9 amended.**  The lookup rule the code implements: `chkhd`
returns the 1-based index of the first record of which the key is a
prefix AND whose byte at offset `strlen(key)` is a space or `=` (not
byte 8), every earlier record failing that test; `gethd_raw` returns
the 70-byte value field of the first record of which the key is a raw
prefix, with no check of any further byte; and when no record has the
key as a prefix, `chkhd` returns 0 and the `gethd_*` family return
their missing-key defaults (0, NaN, false, flag 1). -/
theorem header_lookup_first_match (h : Header) (key : List Char)
    (hk : 1 ≤ key.length ∧ key.length ≤ FITS_HEADER_KEYWORD_SIZE) :
    (∀ i, DataCube_chkhd h key = some (i + 1) →
      i < h.length ∧ chkMatch key (h.getD i blankLine) = true ∧
      ∀ j, j < i → chkMatch key (h.getD j blankLine) = false) ∧
    (∀ l, DataCube_gethd_raw h key = some l →
      ∃ i, i < h.length ∧ key.isPrefixOf (h.getD i blankLine) = true ∧
        l = ((h.getD i blankLine).drop FITS_HEADER_KEY_SIZE).take FITS_HEADER_VALUE_SIZE ∧
        ∀ j, j < i → key.isPrefixOf (h.getD j blankLine) = false) ∧
    ((∀ l ∈ h, key.isPrefixOf l = false) →
      DataCube_chkhd h key = some 0 ∧
      DataCube_gethd_raw h key = none ∧
      DataCube_gethd_int h key = 0 ∧
      DataCube_gethd_flt h key = none ∧
      DataCube_gethd_bool h key = false ∧
      DataCube_gethd_str h key = none) := by
  refine ⟨?_, ?_, ?_⟩
  · intro i hr
    unfold DataCube_chkhd at hr
    rw [if_pos hk] at hr
    have h2 := Option.some.inj hr
    cases hfi : h.findIdx? (chkMatch key) with
    | none =>
      rw [hfi] at h2
      exact absurd h2 (by simp)
    | some n =>
      rw [hfi] at h2
      dsimp only at h2
      have hn : n = i := by omega
      subst hn
      obtain ⟨-, hlt, hp, hbefore⟩ := findIdx?_first (chkMatch key) blankLine h 0 n hfi
      simp only [Nat.sub_zero] at hlt hp hbefore
      exact ⟨hlt, hp, hbefore⟩
  · intro l hr
    unfold DataCube_gethd_raw at hr
    cases hfi : h.find? (fun l2 => key.isPrefixOf l2) with
    | none =>
      rw [hfi] at hr
      exact Option.noConfusion hr
    | some l2 =>
      rw [hfi] at hr
      have hl : l = (l2.drop FITS_HEADER_KEY_SIZE).take FITS_HEADER_VALUE_SIZE :=
        (Option.some.inj hr).symm
      obtain ⟨i, hlt, hp, hx, hbefore⟩ :=
        find?_first (fun l2 => key.isPrefixOf l2) blankLine h l2 hfi
      refine ⟨i, hlt, ?_, ?_, hbefore⟩
      · rw [← hx]
        exact hp
      · rw [hl, hx]
  · intro hpref
    have hchk : DataCube_chkhd h key = some 0 := by
      unfold DataCube_chkhd
      rw [if_pos hk]
      rw [findIdx?_none (chkMatch key) h 0 ?_]
      intro x hx
      unfold chkMatch
      rw [hpref x hx]
      rfl
    have hraw : DataCube_gethd_raw h key = none := by
      unfold DataCube_gethd_raw
      rw [List.find?_eq_none.mpr ?_]
      intro x hx
      rw [hpref x hx]
      simp
    refine ⟨hchk, hraw, ?_, ?_, ?_, ?_⟩
    · unfold DataCube_gethd_int
      rw [hraw]
    · unfold DataCube_gethd_flt
      rw [hraw]
    · unfold DataCube_gethd_bool
      rw [hraw]
    · unfold DataCube_gethd_str
      rw [hraw]

/-- Witness for C9: on a header without any KEY-prefixed record, the
key-present checker reports 0 and the typed readers their defaults. -/
theorem header_lookup_first_match_witness :
    DataCube_chkhd hdrC9c keyKEY = some 0 ∧
    DataCube_gethd_int hdrC9c keyKEY = 0 ∧
    DataCube_gethd_bool hdrC9c keyKEY = false :=
  ⟨((header_lookup_first_match hdrC9c keyKEY (by decide)).2.2
      (by with_unfolding_all decide)).1,
   ((header_lookup_first_match hdrC9c keyKEY (by decide)).2.2
      (by with_unfolding_all decide)).2.2.1,
   ((header_lookup_first_match hdrC9c keyKEY (by decide)).2.2
      (by with_unfolding_all decide)).2.2.2.2.1⟩

theorem padLeft_length (cs : List Char) (n : ℕ) (h : cs.length ≤ n) :
    (padLeft cs n).length = n := by
  unfold padLeft
  simp only [List.length_append, List.length_replicate]
  omega

theorem padRight_length (cs : List Char) (n : ℕ) (h : cs.length ≤ n) :
    (padRight cs n).length = n := by
  unfold padRight
  simp only [List.length_append, List.length_replicate]
  omega

theorem digitChar_facts (d : ℕ) (h : d < 10) :
    isDigitCh (digitChar d) = true ∧ ((digitChar d) == ' ') = false ∧
    digitChar d ≠ '-' ∧ digitChar d ≠ '+' := by
  have hall : ∀ d2, d2 < 10 → isDigitCh (digitChar d2) = true ∧
      ((digitChar d2) == ' ') = false ∧ digitChar d2 ≠ '-' ∧ digitChar d2 ≠ '+' := by
    decide
  exact hall d h

theorem mem_natDigitChars (n : ℕ) (c : Char) (hc : c ∈ natDigitChars n) :
    isDigitCh c = true ∧ (c == ' ') = false ∧ c ≠ '-' ∧ c ≠ '+' := by
  unfold natDigitChars at hc
  obtain ⟨d, hd, rfl⟩ := List.mem_map.mp hc
  exact digitChar_facts d (Nat.digits_lt_base (by norm_num) (List.mem_reverse.mp hd))

theorem foldl_digits (ds : List ℕ) (hd : ∀ d ∈ ds, d < 10) :
    ∀ a : ℕ, (ds.reverse.map digitChar).foldl (fun a c => 10 * a + (c.toNat - 48)) a =
      a * 10 ^ ds.length + Nat.ofDigits 10 ds := by
  induction ds with
  | nil =>
    intro a
    simp
  | cons d ds ih =>
    intro a
    have hdlt : d < 10 := hd d (List.mem_cons_self d ds)
    rw [List.reverse_cons, List.map_append, List.foldl_append]
    rw [ih (fun x hx => hd x (List.mem_cons_of_mem d hx)) a]
    have htn : (digitChar d).toNat = 48 + d := by
      have hall : ∀ d2, d2 < 10 → (digitChar d2).toNat = 48 + d2 := by decide
      exact hall d hdlt
    simp only [List.map_cons, List.map_nil, List.foldl_cons, List.foldl_nil, htn]
    rw [Nat.ofDigits_cons]
    simp only [List.length_cons]
    ring_nf
    omega

theorem parseNatDigits_natDigitChars (n : ℕ) : parseNatDigits (natDigitChars n) = n := by
  unfold parseNatDigits natDigitChars
  rw [foldl_digits (Nat.digits 10 n)
    (fun d hd => Nat.digits_lt_base (by norm_num) hd) 0]
  simp [Nat.ofDigits_digits]

theorem dropWhile_sp (k : ℕ) (l : List Char) :
    List.dropWhile (fun c => c == ' ') (List.replicate k ' ' ++ l) =
      List.dropWhile (fun c => c == ' ') l := by
  induction k with
  | zero => simp
  | succ k ih =>
    rw [List.replicate_succ, List.cons_append, List.dropWhile_cons]
    simpa using ih

theorem takeWhile_append_all (p : Char → Bool) (l1 l2 : List Char)
    (h1 : ∀ c ∈ l1, p c = true) (h2 : List.takeWhile p l2 = []) :
    List.takeWhile p (l1 ++ l2) = l1 := by
  induction l1 with
  | nil => simpa using h2
  | cons c t ih =>
    rw [List.cons_append, List.takeWhile_cons, h1 c (List.mem_cons_self c t)]
    simp only [if_true]
    rw [ih (fun x hx => h1 x (List.mem_cons_of_mem c hx))]

theorem takeWhile_digit_sp (k : ℕ) :
    List.takeWhile isDigitCh (List.replicate k ' ') = [] := by
  cases k with
  | zero => rfl
  | succ k =>
    rw [List.replicate_succ, List.takeWhile_cons]
    rfl

theorem strtolCore_digits (c : Char) (t : List Char) (m : ℕ)
    (hall : ∀ x ∈ c :: t, isDigitCh x = true)
    (hminus : c ≠ '-') (hplus : c ≠ '+') :
    strtolCore ((c :: t) ++ List.replicate m ' ') = (parseNatDigits (c :: t) : ℤ) := by
  unfold strtolCore
  rw [List.cons_append]
  simp only [List.head?_cons]
  rw [if_neg (by simp [hminus]), if_neg (by simp [hplus])]
  rw [show (c :: (t ++ List.replicate m ' ')) = (c :: t) ++ List.replicate m ' ' from by simp]
  rw [takeWhile_append_all isDigitCh _ _ hall (takeWhile_digit_sp m)]

theorem strtolCore_neg_digits (t : List Char) (m : ℕ)
    (hall : ∀ x ∈ t, isDigitCh x = true) :
    strtolCore (('-' :: t) ++ List.replicate m ' ') = -(parseNatDigits t : ℤ) := by
  unfold strtolCore
  rw [List.cons_append]
  simp only [List.head?_cons]
  simp only [if_true]
  simp only [List.drop_one, List.tail_cons]
  rw [takeWhile_append_all isDigitCh _ _ hall (takeWhile_digit_sp m)]

theorem strtolM_intBuffer (v : ℤ) (h : (intChars v).length ≤ FITS_HEADER_FIXED_WIDTH) :
    strtolM (padRight (padLeft (intChars v) FITS_HEADER_FIXED_WIDTH)
      FITS_HEADER_VALUE_SIZE) = v := by
  unfold strtolM padRight padLeft
  rw [List.append_assoc, dropWhile_sp]
  rcases lt_trichotomy v 0 with hv | hv | hv
  · have hic : intChars v = '-' :: natDigitChars v.natAbs := by
      unfold intChars
      rw [if_pos hv]
    rw [hic, List.cons_append, List.dropWhile_cons]
    simp only [show (('-' : Char) == ' ') = false from rfl, Bool.false_eq_true, if_false]
    rw [← List.cons_append]
    rw [strtolCore_neg_digits _ _ (fun x hx => (mem_natDigitChars _ x hx).1)]
    rw [parseNatDigits_natDigitChars]
    omega
  · subst hv
    with_unfolding_all decide
  · have hic : intChars v = natDigitChars v.natAbs := by
      unfold intChars
      rw [if_neg (by omega), if_neg (by omega)]
    cases hds : natDigitChars v.natAbs with
    | nil =>
      exfalso
      have hz : v.natAbs = 0 := by
        unfold natDigitChars at hds
        simpa [Nat.digits_eq_nil_iff_eq_zero] using hds
      omega
    | cons c t =>
      have hcfacts := mem_natDigitChars v.natAbs c (by rw [hds]; exact List.mem_cons_self c t)
      rw [hic, hds, List.cons_append, List.dropWhile_cons]
      rw [hcfacts.2.1]
      simp only [Bool.false_eq_true, if_false]
      rw [← List.cons_append]
      rw [strtolCore_digits c t _ ?_ hcfacts.2.2.1 hcfacts.2.2.2]
      · rw [← hds, parseNatDigits_natDigitChars]
        omega
      · intro x hx
        exact (mem_natDigitChars v.natAbs x (by rw [hds]; exact hx)).1

set_option maxRecDepth 40000 in
theorem puthd_raw_hdrE (buf : List Char) (hb : buf.length = 70) :
    DataCube_puthd_raw hdrE keyKEY buf = some (hdrPut buf) := by
  unfold DataCube_puthd_raw
  rw [show DataCube_chkhd hdrE keyKEY = some 0 from by with_unfolding_all decide]
  dsimp only
  rw [if_neg (lt_irrefl 0)]
  rw [show DataCube_chkhd hdrE ENDKEY = some 1 from by with_unfolding_all decide]
  dsimp only
  rw [if_neg (by decide : ¬ (1 : ℕ) % FITS_HEADER_LINES = 0)]
  have hE : hdrE = lineOf "END" :: blankLine :: List.replicate 34 blankLine := by
    with_unfolding_all decide
  rw [hE]
  simp only [List.set_cons_zero, List.set_cons_succ, List.getD_cons_succ, List.getD_cons_zero,
    Nat.sub_self]
  unfold hdrPut
  rw [show writeAt blankLine 0 ENDKEY = lineOf "END" from by with_unfolding_all decide]
  refine congrArg some (congrArg (fun l => l :: lineOf "END" :: List.replicate 34 blankLine) ?_)
  rw [show writeAt (writeAt (lineOf "END") 0 keyKEY) FITS_HEADER_KEYWORD_SIZE [Char.ofNat 61] =
    keyHead ++ List.replicate 70 ' ' from by with_unfolding_all decide]
  unfold writeAt
  rw [hb]
  rw [show (keyHead ++ List.replicate 70 ' ').take FITS_HEADER_KEY_SIZE = keyHead from by
    with_unfolding_all decide]
  rw [show (keyHead ++ List.replicate 70 ' ').drop (FITS_HEADER_KEY_SIZE + 70) = [] from by
    with_unfolding_all decide]
  rw [List.append_nil]

theorem gethd_raw_hdrPut (buf : List Char) (hb : buf.length = 70) :
    DataCube_gethd_raw (hdrPut buf) keyKEY = some buf := by
  unfold DataCube_gethd_raw hdrPut
  rw [List.find?_cons]
  rw [show keyKEY.isPrefixOf (keyHead ++ buf) = true from rfl]
  dsimp only
  refine congrArg some ?_
  rw [show FITS_HEADER_KEY_SIZE = keyHead.length from rfl, List.drop_left]
  rw [show FITS_HEADER_VALUE_SIZE = buf.length from by rw [hb]; rfl]
  exact List.take_length buf

set_option maxRecDepth 40000 in
theorem delhd_hdrPut (buf : List Char) (hb : buf.length = 70) :
    DataCube_delhd (hdrPut buf) keyKEY = some hdrE := by
  have hchk1 : DataCube_chkhd (hdrPut buf) keyKEY = some 1 := by
    unfold DataCube_chkhd hdrPut
    rw [if_pos (by decide)]
    rw [List.findIdx?_cons]
    rw [show chkMatch keyKEY (keyHead ++ buf) = true from rfl]
    rfl
  have hstep : delStep (hdrPut buf) 1 =
      lineOf "END" :: (List.replicate 34 blankLine ++ [blankLine]) := rfl
  unfold DataCube_delhd
  rw [hchk1]
  dsimp only
  rw [show (hdrPut buf).length = 36 from rfl]
  rw [show (36 : ℕ) = 35 + 1 from rfl]
  rw [delLoop]
  rw [hchk1]
  dsimp only
  rw [hstep]
  with_unfolding_all decide

theorem closeQuote_no_quote (s2 : List Char) (hq : ¬ quoteChar ∈ s2) :
    ∀ (r : List Char), r.head? ≠ some quoteChar →
    ∀ i, closeQuote (s2 ++ (quoteChar :: r)) i = some (i + s2.length) := by
  induction s2 with
  | nil =>
    intro r hr i
    rw [List.nil_append, closeQuote.eq_def]
    dsimp only
    rw [if_pos rfl]
    cases r with
    | nil => simp
    | cons c2 r2 =>
      dsimp only
      rw [if_neg (by simpa using hr)]
      simp
  | cons c t ih =>
    intro r hr i
    rw [List.cons_append, closeQuote.eq_def]
    dsimp only
    rw [if_neg (fun hc => hq (by rw [← hc]; exact List.mem_cons_self c t))]
    rw [ih (fun hx => hq (List.mem_cons_of_mem c hx)) r hr (i + 1)]
    refine congrArg some ?_
    simp only [List.length_cons]
    omega

theorem replicate_sp_head (n : ℕ) : (List.replicate n ' ').head? ≠ some quoteChar := by
  cases n with
  | zero => simp
  | succ k =>
    rw [List.replicate_succ]
    simp only [List.head?_cons]
    intro hc
    exact absurd (Option.some.inj hc) (by decide)

set_option maxRecDepth 40000 in
/-- **C6 amended.**  On a fresh header block (END plus blank padding,
so no other keyword shadows the key), put followed by get returns the
value exactly for a long int whose decimal rendering fits the fixed
20-byte field, for both booleans, and for quote-free strings of at
most 68 bytes; get_flt after put_flt returns the parse of the
12-significant-digit `%.11E` rendering (not `v` itself in general);
and put followed by del restores the fresh header, on which every get
yields its missing-key outcome (0, NaN, false, flag 1) and chkhd 0. -/
theorem header_put_get_del (v : ℤ) (b : Bool) (s : List Char) (q : ℚ)
    (hv : (intChars v).length ≤ FITS_HEADER_FIXED_WIDTH)
    (hs : s.length ≤ 68) (hsq : ¬ quoteChar ∈ s) :
    ((DataCube_puthd_int hdrE keyKEY v).map (fun h2 => DataCube_gethd_int h2 keyKEY) =
      some v) ∧
    ((DataCube_puthd_bool hdrE keyKEY b).map (fun h2 => DataCube_gethd_bool h2 keyKEY) =
      some b) ∧
    ((DataCube_puthd_str hdrE keyKEY s).map (fun h2 => DataCube_gethd_str h2 keyKEY) =
      some (some s)) ∧
    ((DataCube_puthd_flt hdrE keyKEY q).map (fun h2 => DataCube_gethd_flt h2 keyKEY) =
      (fltBuffer q).map (fun bf => some (strtodM bf))) ∧
    ((DataCube_puthd_int hdrE keyKEY v).bind (fun h2 => DataCube_delhd h2 keyKEY) =
      some hdrE) ∧
    (DataCube_gethd_int hdrE keyKEY = 0 ∧ DataCube_gethd_flt hdrE keyKEY = none ∧
      DataCube_gethd_bool hdrE keyKEY = false ∧ DataCube_gethd_str hdrE keyKEY = none ∧
      DataCube_chkhd hdrE keyKEY = some 0) := by
  have hib : intBuffer v = some (padRight (padLeft (intChars v) FITS_HEADER_FIXED_WIDTH)
      FITS_HEADER_VALUE_SIZE) := by
    unfold intBuffer
    rw [if_pos hv]
  have hiblen : (padRight (padLeft (intChars v) FITS_HEADER_FIXED_WIDTH)
      FITS_HEADER_VALUE_SIZE).length = 70 := by
    refine padRight_length _ _ ?_
    rw [padLeft_length _ _ hv]
    decide
  refine ⟨?_, ?_, ?_, ?_, ?_, by with_unfolding_all decide⟩
  · unfold DataCube_puthd_int
    rw [hib]
    dsimp only
    rw [puthd_raw_hdrE _ hiblen, Option.map_some']
    refine congrArg some ?_
    unfold DataCube_gethd_int
    rw [gethd_raw_hdrPut _ hiblen]
    exact strtolM_intBuffer v hv
  · cases b <;> with_unfolding_all decide
  · have h68 : FITS_HEADER_VALUE_SIZE - 2 = 68 := by decide
    have hsb : strBuffer s = some (quoteChar :: (s ++ [quoteChar] ++
        List.replicate (FITS_HEADER_VALUE_SIZE - 2 - s.length) ' ')) := by
      unfold strBuffer
      rw [if_pos (by rw [h68]; exact hs)]
    have hsblen : (quoteChar :: (s ++ [quoteChar] ++
        List.replicate (FITS_HEADER_VALUE_SIZE - 2 - s.length) ' ')).length = 70 := by
      simp only [List.length_cons, List.length_append, List.length_replicate,
        List.length_nil]
      rw [show FITS_HEADER_VALUE_SIZE - 2 - s.length = 68 - s.length from by rw [h68]]
      omega
    unfold DataCube_puthd_str
    rw [hsb]
    dsimp only
    rw [puthd_raw_hdrE _ hsblen, Option.map_some']
    refine congrArg some ?_
    unfold DataCube_gethd_str
    rw [gethd_raw_hdrPut _ hsblen]
    dsimp only
    rw [List.dropWhile_cons]
    rw [show (!(quoteChar == quoteChar)) = false from rfl]
    simp only [Bool.false_eq_true, if_false]
    rw [List.append_assoc, List.singleton_append]
    rw [closeQuote_no_quote s hsq _ (replicate_sp_head _) 0]
    dsimp only
    rw [Nat.zero_add]
    rw [List.take_left]
  · cases hfb : fltBuffer q with
    | none =>
      unfold DataCube_puthd_flt
      rw [hfb]
      rfl
    | some bf =>
      have hfc : (fltChars q).length ≤ FITS_HEADER_FIXED_WIDTH := by
        by_contra hcon
        unfold fltBuffer at hfb
        rw [if_neg hcon] at hfb
        exact Option.noConfusion hfb
      have hbflen : bf.length = 70 := by
        have hbf : bf = padRight (padLeft (fltChars q) FITS_HEADER_FIXED_WIDTH)
            FITS_HEADER_VALUE_SIZE := by
          unfold fltBuffer at hfb
          rw [if_pos hfc] at hfb
          exact (Option.some.inj hfb).symm
        rw [hbf]
        refine padRight_length _ _ ?_
        rw [padLeft_length _ _ hfc]
        decide
      unfold DataCube_puthd_flt
      rw [hfb]
      dsimp only
      rw [puthd_raw_hdrE _ hbflen, Option.map_some', Option.map_some']
      refine congrArg some ?_
      unfold DataCube_gethd_flt
      rw [gethd_raw_hdrPut _ hbflen]
  · unfold DataCube_puthd_int
    rw [hib]
    dsimp only
    rw [puthd_raw_hdrE _ hiblen]
    simp only [Option.some_bind]
    exact delhd_hdrPut _ hiblen

set_option maxRecDepth 100000 in
/-- **C6 counterexample.**  Put/get is not a roundtrip on every header:
on a block containing the record `KEYS    = ... 1`, putting KEY = 7
inserts a fresh KEY record (chkhd tests the byte after the keyword, so
KEYS does not match the key KEY), but get_int looks the key up by raw
prefix, hits the earlier KEYS record first, and returns its value 1
instead of the 7 just written. -/
theorem header_put_get_shadowed :
    (DataCube_puthd_int hdrC6 keyKEY 7).map
      (fun h2 => DataCube_gethd_int h2 keyKEY) = some 1 := by
  with_unfolding_all decide

/-- Witness for C6: on the fresh header block, put 42 then get returns
42; put then del restores the fresh header, where get reads 0. -/
theorem header_put_get_del_witness :
    ((DataCube_puthd_int hdrE keyKEY 42).map
      (fun h2 => DataCube_gethd_int h2 keyKEY) = some 42) ∧
    ((DataCube_puthd_int hdrE keyKEY 42).bind
      (fun h2 => DataCube_delhd h2 keyKEY) = some hdrE) ∧
    DataCube_gethd_int hdrE keyKEY = 0 :=
  ⟨(header_put_get_del 42 true [] 0 (by with_unfolding_all decide) (by decide)
      (by decide)).1,
   (header_put_get_del 42 true [] 0 (by with_unfolding_all decide) (by decide)
      (by decide)).2.2.2.2.1,
   (header_put_get_del 42 true [] 0 (by with_unfolding_all decide) (by decide)
      (by decide)).2.2.2.2.2.1⟩

end SoFiA
